import Mathlib

/-!
# CCommonMark: version header and the Markdown pipeline

The repository ships the C headers of its bundled CommonMark module
(`Sources/CCommonMark/include`).  `cmark_version.h` is embedded directly.
The parser and renderer sources of the module are not part of the source
snapshot; they are modelled from the written specification (sections 3 to 6)
and every such definition says so in its doc comment.

Bytes are natural numbers; a byte sequence is a `List Nat`.
-/

namespace CCommonMark

/-! ## cmark_version.h -/

/-- The macro `CMARK_VERSION`: `((0 << 16) | (22 << 8) | 0)`. The operands are
small non-negative C `int`s, so no overflow or sign issue arises. -/
def CMARK_VERSION : Nat := ((0 <<< 16) ||| (22 <<< 8) ||| 0)

/-- The macro `CMARK_VERSION_STRING`. -/
def CMARK_VERSION_STRING : String := "0.22.0"

/-- Major component of a packed version: `(v >> 16) & 0xFF`. -/
def versionMajor (v : Nat) : Nat := (v >>> 16) &&& 0xFF

/-- Minor component of a packed version: `(v >> 8) & 0xFF`. -/
def versionMinor (v : Nat) : Nat := (v >>> 8) &&& 0xFF

/-- Patch component of a packed version: `v & 0xFF`. -/
def versionPatch (v : Nat) : Nat := v &&& 0xFF

/-- Decimal digits of a number, least significant first, with explicit fuel. -/
def decimalDigitsRev : Nat → Nat → List Char
  | 0, _ => []
  | fuel + 1, n =>
    if n < 10 then [Char.ofNat (48 + n)]
    else Char.ofNat (48 + n % 10) :: decimalDigitsRev fuel (n / 10)

/-- Decimal rendering of a natural number. -/
def decimal (n : Nat) : String := String.mk (decimalDigitsRev (n + 1) n).reverse

/-- The dotted string `major.minor.patch` of a packed version. -/
def versionString (v : Nat) : String :=
  decimal (versionMajor v) ++ "." ++ decimal (versionMinor v) ++ "." ++ decimal (versionPatch v)

/-! ## Bytes and character classes -/

/-- A byte of the input or output buffer. -/
abbrev Byte := Nat

/-- The bytes of an ASCII string literal. -/
def bytesOf (s : String) : List Byte := s.data.map Char.toNat

/-- Space or tab. -/
def isSpaceOrTab (c : Byte) : Bool := c == 32 || c == 9

/-- ASCII whitespace: space, tab, line feed, vertical tab, form feed, carriage return. -/
def isWhitespace (c : Byte) : Bool :=
  c == 32 || c == 9 || c == 10 || c == 11 || c == 12 || c == 13

/-- ASCII decimal digit. -/
def isDigit (c : Byte) : Bool := decide (48 ≤ c) && decide (c ≤ 57)

/-- ASCII letter. -/
def isAlpha (c : Byte) : Bool :=
  (decide (65 ≤ c) && decide (c ≤ 90)) || (decide (97 ≤ c) && decide (c ≤ 122))

/-- ASCII letter or digit. -/
def isAlnum (c : Byte) : Bool := isAlpha c || isDigit c

/-- ASCII hexadecimal digit. -/
def isHexDigit (c : Byte) : Bool :=
  isDigit c || (decide (65 ≤ c) && decide (c ≤ 70)) || (decide (97 ≤ c) && decide (c ≤ 102))

/-- ASCII punctuation character. -/
def isAsciiPunct (c : Byte) : Bool :=
  (decide (33 ≤ c) && decide (c ≤ 47)) || (decide (58 ≤ c) && decide (c ≤ 64)) ||
  (decide (91 ≤ c) && decide (c ≤ 96)) || (decide (123 ≤ c) && decide (c ≤ 126))

/-- ASCII control character. -/
def isControl (c : Byte) : Bool := decide (c < 32) || c == 127

/-- ASCII lower-casing of one byte. -/
def toLower (c : Byte) : Byte := if 65 ≤ c ∧ c ≤ 90 then c + 32 else c

/-- Whether `p` is an initial segment of `s`. -/
def startsWith : List Byte → List Byte → Bool
  | [], _ => true
  | _ :: _, [] => false
  | a :: p, b :: s => a == b && startsWith p s

/-- Whether `p` is an initial segment of `s`, ignoring ASCII case. -/
def startsWithCI : List Byte → List Byte → Bool
  | [], _ => true
  | _ :: _, [] => false
  | a :: p, b :: s => toLower a == toLower b && startsWithCI p s

/-- Whether `p` occurs somewhere in `s`. -/
def containsSub (p : List Byte) : List Byte → Bool
  | [] => p.isEmpty
  | c :: s => startsWith p (c :: s) || containsSub p s

/-- Whether `p` occurs somewhere in `s`, ignoring ASCII case. -/
def containsSubCI (p : List Byte) : List Byte → Bool
  | [] => p.isEmpty
  | c :: s => startsWithCI p (c :: s) || containsSubCI p s

/-- Length of the initial run of bytes satisfying `p`. -/
def spanLen (p : Byte → Bool) : List Byte → Nat
  | [] => 0
  | c :: s => if p c then spanLen p s + 1 else 0

/-- Remove trailing bytes satisfying `p`. -/
def rtrimBy (p : Byte → Bool) (s : List Byte) : List Byte :=
  (s.reverse.dropWhile p).reverse

/-- Remove leading and trailing ASCII whitespace. -/
def trim (s : List Byte) : List Byte := rtrimBy isWhitespace (s.dropWhile isWhitespace)

/-- Whether a byte sequence holds only ASCII whitespace. -/
def isBlank (s : List Byte) : Bool := s.all isWhitespace

/-! ## Tree model (specification section 3) -/

/-- Modelled from the spec: the configuration flags of section 6 (the parser
sources are absent from the snapshot). -/
structure Options where
  smart_punctuation : Bool
  unsafe_raw_html : Bool
  validate_utf8 : Bool
  deriving DecidableEq, Repr

/-- Modelled from the spec: the node kinds of the document tree with their
kind-specific fields (section 3; the tree sources are absent from the snapshot). -/
inductive NodeKind where
  | document
  | blockQuote
  | list (ordered : Bool) (start : Nat) (tight : Bool) (delim : Byte)
  | listItem (tight : Bool)
  | heading (level : Nat)
  | paragraph
  | codeBlock (fenced : Bool) (info : List Byte) (literal : List Byte)
  | htmlBlock (literal : List Byte)
  | thematicBreak
  | text (literal : List Byte)
  | emphasis
  | strong
  | link (dest : List Byte) (title : List Byte) (fromRef : Bool)
  | image (dest : List Byte) (title : List Byte) (fromRef : Bool)
  | code (literal : List Byte)
  | lineBreak (hard : Bool)
  | rawHtml (literal : List Byte)
  deriving DecidableEq, Repr

/-- Modelled from the spec: a document tree node owns its kind data and an
ordered sequence of children (section 3). -/
inductive Node where
  | mk (kind : NodeKind) (children : List Node)
  deriving Repr

/-- Kind of a node. -/
def Node.kind : Node → NodeKind
  | .mk k _ => k

/-- Children of a node, in source order. -/
def Node.children : Node → List Node
  | .mk _ cs => cs

mutual
/-- Structural equality of two trees: same kind data and pairwise structurally
equal children. -/
def Node.structEq : Node → Node → Bool
  | .mk k cs, .mk k2 cs2 => decide (k = k2) && Node.structEqList cs cs2
/-- Structural equality of two child sequences. -/
def Node.structEqList : List Node → List Node → Bool
  | [], [] => true
  | c :: cs, d :: ds => Node.structEq c d && Node.structEqList cs ds
  | _, _ => false
end

mutual
/-- Every node of the tree, the root first (pre-order). -/
def Node.nodes : Node → List Node
  | .mk k cs => .mk k cs :: Node.nodesList cs
/-- Every node of a forest (pre-order). -/
def Node.nodesList : List Node → List Node
  | [] => []
  | c :: cs => Node.nodes c ++ Node.nodesList cs
end

/-- Whether a node is a link. -/
def Node.isLink : Node → Bool
  | .mk (.link _ _ _) _ => true
  | _ => false

mutual
/-- No link occurs anywhere in the tree, the root included. -/
def Node.linkFree : Node → Bool
  | .mk k cs =>
    (match k with
     | .link _ _ _ => false
     | _ => true) && Node.linkFreeList cs
/-- No link occurs anywhere in the forest. -/
def Node.linkFreeList : List Node → Bool
  | [] => true
  | c :: cs => Node.linkFree c && Node.linkFreeList cs
end

mutual
/-- No link of the tree has a link among its descendants. -/
def Node.noNestedLinks : Node → Bool
  | .mk k cs =>
    (match k with
     | .link _ _ _ => Node.linkFreeList cs
     | _ => true) && Node.noNestedLinksList cs
/-- No link of the forest has a link among its descendants. -/
def Node.noNestedLinksList : List Node → Bool
  | [] => true
  | c :: cs => Node.noNestedLinks c && Node.noNestedLinksList cs
end

/-- Every list item among the given children of a list is tight. -/
def Node.itemsTight (cs : List Node) : Bool :=
  cs.all (fun c =>
    match c.kind with
    | .listItem tight => tight
    | _ => true)

mutual
/-- Every list of the tree is tight and so is every list item of every list. -/
def Node.allTight : Node → Bool
  | .mk k cs =>
    (match k with
     | .list _ _ tight _ => tight && Node.itemsTight cs
     | _ => true) && Node.allTightList cs
/-- Every list of the forest is tight, with all its list items. -/
def Node.allTightList : List Node → Bool
  | [] => true
  | c :: cs => Node.allTight c && Node.allTightList cs
end

/-! ## Line scanner (specification section 4.1) -/

/-- The UTF-8 encoding of U+FFFD, the replacement character. -/
def replacementChar : List Byte := [0xEF, 0xBF, 0xBD]

/-- A UTF-8 continuation byte. -/
def isCont (c : Byte) : Bool := decide (0x80 ≤ c) && decide (c ≤ 0xBF)

/-- Number of continuation bytes that follow the lead byte `b0` when `b0 :: rest`
starts a well-formed UTF-8 sequence of two to four bytes. -/
def utf8Tail (b0 : Byte) (rest : List Byte) : Option Nat :=
  match rest with
  | [] => none
  | b1 :: r1 =>
    if 0xC2 ≤ b0 ∧ b0 ≤ 0xDF then (if isCont b1 then some 1 else none)
    else
      match r1 with
      | [] => none
      | b2 :: r2 =>
        if 0xE0 ≤ b0 ∧ b0 ≤ 0xEF then
          (if isCont b1 ∧ isCont b2 ∧ (b0 = 0xE0 → 0xA0 ≤ b1) ∧ (b0 = 0xED → b1 ≤ 0x9F)
           then some 2 else none)
        else
          match r2 with
          | [] => none
          | b3 :: _ =>
            if 0xF0 ≤ b0 ∧ b0 ≤ 0xF4 ∧ isCont b1 ∧ isCont b2 ∧ isCont b3
                ∧ (b0 = 0xF0 → 0x90 ≤ b1) ∧ (b0 = 0xF4 → b1 ≤ 0x8F)
            then some 3 else none

/-- Worker of `validateUtf8`: the second argument counts the continuation bytes
of an already accepted sequence that are still to be copied. -/
def validateUtf8Aux : List Byte → Nat → List Byte
  | [], _ => []
  | b :: rest, k + 1 => b :: validateUtf8Aux rest k
  | b :: rest, 0 =>
    if b = 0 then replacementChar ++ validateUtf8Aux rest 0
    else if b < 0x80 then b :: validateUtf8Aux rest 0
    else
      match utf8Tail b rest with
      | some n => b :: validateUtf8Aux rest n
      | none => replacementChar ++ validateUtf8Aux rest 0

/-- Modelled from the spec: replacement-character substitution for input that
is not valid text (section 7, MalformedUnicode): every byte that does not start
a well-formed UTF-8 sequence is replaced by U+FFFD, as is the NUL byte. -/
def validateUtf8 (s : List Byte) : List Byte := validateUtf8Aux s 0

/-- Modelled from the spec: a logical line (section 4.1): its text without the
line ending, its leading indent in columns and its byte offset in the input. -/
structure Line where
  text : List Byte
  indent : Nat
  offset : Nat
  deriving DecidableEq, Repr

/-- Columns covered by the leading run of spaces and tabs of a text that
starts at column `col`; a tab reaches the next multiple-of-4 column stop. -/
def indentWidth : Nat → List Byte → Nat
  | _, [] => 0
  | col, c :: rest =>
    if c = 32 then 1 + indentWidth (col + 1) rest
    else if c = 9 then (4 - col % 4) + indentWidth (col + (4 - col % 4)) rest
    else 0

/-- Worker of `scanLines`: `cur` is the current line reversed, `start` its byte
offset, `pos` the offset of the next byte, `afterCR` whether the previous byte
was a carriage return (so that a line feed completes a CRLF pair). -/
def scanLinesAux : List Byte → List Byte → Nat → Nat → Bool → List Line
  | [], cur, start, _, _ =>
    if cur.isEmpty then [] else [⟨cur.reverse, indentWidth 0 cur.reverse, start⟩]
  | c :: rest, cur, start, pos, afterCR =>
    if c = 10 then
      if afterCR then scanLinesAux rest cur (pos + 1) (pos + 1) false
      else ⟨cur.reverse, indentWidth 0 cur.reverse, start⟩ ::
        scanLinesAux rest [] (pos + 1) (pos + 1) false
    else if c = 13 then
      ⟨cur.reverse, indentWidth 0 cur.reverse, start⟩ ::
        scanLinesAux rest [] (pos + 1) (pos + 1) true
    else scanLinesAux rest (c :: cur) start (pos + 1) false

/-- Modelled from the spec: the Line Scanner (section 4.1). A leading byte-order
mark is skipped; CRLF, CR and LF all end a line. -/
def scanLines (input : List Byte) : List Line :=
  if startsWith [0xEF, 0xBB, 0xBF] input then scanLinesAux (input.drop 3) [] 3 3 false
  else scanLinesAux input [] 0 0 false

/-- A position inside the line being processed: the column reached and the
bytes not yet consumed. -/
structure Cursor where
  col : Nat
  rest : List Byte
  deriving DecidableEq, Repr

/-- Drop the leading spaces and tabs. -/
def dropIndent (s : List Byte) : List Byte := s.dropWhile isSpaceOrTab

/-- Consume `n` columns of leading whitespace. A tab that spans more columns
than requested is replaced by the spaces that remain of it. -/
def advanceCols : List Byte → Nat → Nat → Cursor
  | [], _, col => ⟨col, []⟩
  | c :: rest, n, col =>
    if n = 0 then ⟨col, c :: rest⟩
    else if c = 32 then advanceCols rest (n - 1) (col + 1)
    else if c = 9 then
      if 4 - col % 4 ≤ n then advanceCols rest (n - (4 - col % 4)) (col + (4 - col % 4))
      else ⟨col + n, List.replicate (4 - col % 4 - n) 32 ++ rest⟩
    else ⟨col, c :: rest⟩

/-- Indent of the unconsumed part of the line, in columns. -/
def Cursor.indent (cur : Cursor) : Nat := indentWidth cur.col cur.rest

/-- The unconsumed part of the line after its leading whitespace. -/
def Cursor.body (cur : Cursor) : List Byte := dropIndent cur.rest

/-- Whether the unconsumed part of the line is blank. -/
def Cursor.blank (cur : Cursor) : Bool := (dropIndent cur.rest).isEmpty

/-- Move to the first byte that is not a space or tab. -/
def Cursor.toBody (cur : Cursor) : Cursor := ⟨cur.col + cur.indent, cur.body⟩

/-- Consume `k` bytes that are not tabs. -/
def Cursor.skip (cur : Cursor) (k : Nat) : Cursor := ⟨cur.col + k, cur.rest.drop k⟩

/-- Consume one column of whitespace when the next byte is a space or tab. -/
def Cursor.optionalSpace (cur : Cursor) : Cursor :=
  match cur.rest with
  | c :: _ => if isSpaceOrTab c then advanceCols cur.rest 1 cur.col else cur
  | [] => cur

/-! ## Block start conditions (specification section 4.2, step 3) -/

/-- Thematic break: three or more `*`, `-` or `_`, optionally separated by
spaces or tabs, and nothing else on the line. -/
def scanThematicBreak (s : List Byte) : Bool :=
  match s with
  | [] => false
  | c :: _ =>
    (c == 42 || c == 45 || c == 95) && s.all (fun d => d == c || isSpaceOrTab d)
      && decide (3 ≤ s.count c)

/-- ATX heading start: one to six `#` followed by a space, a tab or the end of
the line; the result is the level. -/
def scanAtxStart (s : List Byte) : Option Nat :=
  let n := spanLen (fun c => c == 35) s
  if 1 ≤ n ∧ n ≤ 6 then
    match s.drop n with
    | [] => some n
    | c :: _ => if isSpaceOrTab c then some n else none
  else none

/-- Raw text of an ATX heading: what follows the opening `#`s, without a closing
sequence of `#`s that is preceded by a space or tab, trimmed of spaces and tabs. -/
def atxContent (afterHashes : List Byte) : List Byte :=
  let body := rtrimBy isSpaceOrTab afterHashes
  let rev := body.reverse
  let before := rev.dropWhile (fun c => c == 35)
  let chopped :=
    match before with
    | [] => body
    | c :: _ =>
      if isSpaceOrTab c && decide (before.length < rev.length) then
        rtrimBy isSpaceOrTab before.reverse
      else body
  dropIndent chopped

/-- Opening code fence: three or more backticks or tildes; a backtick fence may
not be followed by a backtick on the same line. Result: fence byte and length. -/
def scanOpenFence (s : List Byte) : Option (Byte × Nat) :=
  match s with
  | [] => none
  | c :: _ =>
    if c = 96 ∨ c = 126 then
      let n := spanLen (fun d => d == c) s
      if 3 ≤ n ∧ (c = 96 → (s.drop n).all (fun d => d != 96)) then some (c, n) else none
    else none

/-- Closing code fence for a fence of byte `c` and length `n`: at least `n`
fence bytes and then only spaces or tabs. -/
def scanCloseFence (c : Byte) (n : Nat) (s : List Byte) : Bool :=
  let m := spanLen (fun d => d == c) s
  decide (n ≤ m) && decide (1 ≤ m) && (s.drop m).all isSpaceOrTab

/-- Setext heading underline: a run of `=` (level 1) or `-` (level 2) followed
only by spaces or tabs. -/
def scanSetext (s : List Byte) : Option Nat :=
  match s with
  | [] => none
  | c :: _ =>
    if c = 61 ∨ c = 45 then
      let n := spanLen (fun d => d == c) s
      if (s.drop n).all isSpaceOrTab then some (if c = 61 then 1 else 2) else none
    else none

/-- A parsed list marker: ordered or bullet, start number, delimiter byte (the
bullet character, or `.` / `)` of an ordered marker) and the marker width. -/
structure ListMarker where
  ordered : Bool
  start : Nat
  delim : Byte
  width : Nat
  deriving DecidableEq, Repr

/-- Value of a run of decimal digits. -/
def digitsValue (ds : List Byte) : Nat := ds.foldl (fun acc d => acc * 10 + (d - 48)) 0

/-- List marker at the start of `s`: a bullet `*`, `-`, `+`, or one to nine
digits followed by `.` or `)`; the marker must be followed by a space, a tab or
the end of the line. When the marker would interrupt a paragraph the item may
not be empty and an ordered list must start with 1. -/
def parseListMarker (s : List Byte) (interruptsParagraph : Bool) : Option ListMarker :=
  match s with
  | [] => none
  | c :: rest =>
    if c = 42 ∨ c = 45 ∨ c = 43 then
      let okNext : Bool :=
        match rest with
        | [] => true
        | d :: _ => isSpaceOrTab d
      if okNext && (!interruptsParagraph || !(dropIndent rest).isEmpty) then
        some ⟨false, 0, c, 1⟩
      else none
    else
      let n := spanLen isDigit s
      if 1 ≤ n ∧ n ≤ 9 then
        match s.drop n with
        | [] => none
        | d :: after =>
          if d = 46 ∨ d = 41 then
            let okNext : Bool :=
              match after with
              | [] => true
              | e :: _ => isSpaceOrTab e
            let start := digitsValue (s.take n)
            if okNext && (!interruptsParagraph || (!(dropIndent after).isEmpty && start == 1))
            then some ⟨true, start, d, n + 1⟩
            else none
          else none
      else none

/-! ## HTML tags (specification sections 4.2 and 4.3) -/

/-- Length of a tag name at the start of `s`: an ASCII letter followed by
letters, digits and hyphens; zero when there is none. -/
def scanTagName (s : List Byte) : Nat :=
  match s with
  | [] => 0
  | c :: rest => if isAlpha c then 1 + spanLen (fun d => isAlnum d || d == 45) rest else 0

/-- Length of an attribute name at the start of `s`, zero when there is none. -/
def scanAttrName (s : List Byte) : Nat :=
  match s with
  | [] => 0
  | c :: rest =>
    if isAlpha c || c == 95 || c == 58 then
      1 + spanLen (fun d => isAlnum d || d == 95 || d == 46 || d == 58 || d == 45) rest
    else 0

/-- Length of an attribute value at the start of `s`: unquoted, single-quoted
or double-quoted. -/
def scanAttrValue (s : List Byte) : Option Nat :=
  match s with
  | [] => none
  | c :: rest =>
    if c = 34 ∨ c = 39 then
      let n := spanLen (fun d => d != c) rest
      match rest.drop n with
      | [] => none
      | _ :: _ => some (n + 2)
    else
      let n := spanLen (fun d => !(isWhitespace d || d == 34 || d == 39 || d == 61 || d == 60
        || d == 62 || d == 96)) s
      if n = 0 then none else some n

/-- Length of one attribute at the start of `s`: whitespace, a name and an
optional value specification. -/
def scanAttribute (s : List Byte) : Option Nat :=
  let w := spanLen isWhitespace s
  let n := scanAttrName (s.drop w)
  if w = 0 ∨ n = 0 then none
  else
    let s1 := s.drop (w + n)
    let w1 := spanLen isWhitespace s1
    match s1.drop w1 with
    | [] => some (w + n)
    | c :: after =>
      if c = 61 then
        let w2 := spanLen isWhitespace after
        match scanAttrValue (after.drop w2) with
        | some v => some (w + n + w1 + 1 + w2 + v)
        | none => none
      else some (w + n)

/-- Total length of the attributes at the start of `s`; every attribute
consumes at least two bytes, so `fuel = s.length` is never exhausted. -/
def scanAttributes : Nat → List Byte → Nat
  | 0, _ => 0
  | fuel + 1, s =>
    match scanAttribute s with
    | none => 0
    | some n => n + scanAttributes fuel (s.drop n)

/-- Length of an open tag whose `<` has been consumed: tag name, attributes,
optional whitespace, optional `/`, then `>`. -/
def scanOpenTag (s : List Byte) : Option Nat :=
  let n := scanTagName s
  if n = 0 then none
  else
    let a := scanAttributes s.length (s.drop n)
    let s1 := s.drop (n + a)
    let w := spanLen isWhitespace s1
    match s1.drop w with
    | [] => none
    | c :: after =>
      if c = 62 then some (n + a + w + 1)
      else if c = 47 then
        match after with
        | [] => none
        | d :: _ => if d = 62 then some (n + a + w + 2) else none
      else none

/-- Length of a closing tag whose `</` has been consumed. -/
def scanCloseTag (s : List Byte) : Option Nat :=
  let n := scanTagName s
  if n = 0 then none
  else
    let w := spanLen isWhitespace (s.drop n)
    match s.drop (n + w) with
    | [] => none
    | c :: _ => if c = 62 then some (n + w + 1) else none

/-- Number of bytes before the first occurrence of `p` in `s`. -/
def findSub (p : List Byte) : List Byte → Option Nat
  | [] => if p.isEmpty then some 0 else none
  | c :: s => if startsWith p (c :: s) then some 0 else (findSub p s).map (· + 1)

/-- Length of an inline HTML construct that starts with the `<` at the head of
`s`: open tag, closing tag, comment, processing instruction, declaration or
CDATA section. -/
def scanHtmlTag (s : List Byte) : Option Nat :=
  match s with
  | [] => none
  | c :: rest =>
    if c ≠ 60 then none
    else if startsWith [33, 45, 45] rest then
      if startsWith [62] (rest.drop 3) then some 5
      else if startsWith [45, 62] (rest.drop 3) then some 6
      else (findSub [45, 45, 62] (rest.drop 3)).map (· + 7)
    else if startsWith [63] rest then (findSub [63, 62] (rest.drop 1)).map (· + 4)
    else if startsWith [33, 91, 67, 68, 65, 84, 65, 91] rest then
      (findSub [93, 93, 62] (rest.drop 8)).map (· + 12)
    else if startsWith [33] rest then
      match rest.drop 1 with
      | [] => none
      | d :: _ => if isAlpha d then (findSub [62] (rest.drop 1)).map (· + 3) else none
    else if startsWith [47] rest then (scanCloseTag (rest.drop 1)).map (· + 2)
    else (scanOpenTag rest).map (· + 1)

/-- Tag names that start an HTML block of type 6. -/
def blockTagNames : List (List Byte) :=
  ["address", "article", "aside", "base", "basefont", "blockquote", "body", "caption",
   "center", "col", "colgroup", "dd", "details", "dialog", "dir", "div", "dl", "dt",
   "fieldset", "figcaption", "figure", "footer", "form", "frame", "frameset", "h1", "h2",
   "h3", "h4", "h5", "h6", "head", "header", "hr", "html", "iframe", "legend", "li", "link",
   "main", "menu", "menuitem", "nav", "noframes", "ol", "optgroup", "option", "p", "param",
   "section", "summary", "table", "tbody", "td", "tfoot", "th", "thead", "title", "tr",
   "track", "ul"].map bytesOf

/-- Tag names that start an HTML block of type 1. -/
def rawTagNames : List (List Byte) := ["script", "pre", "style", "textarea"].map bytesOf

/-- The tag name at the start of `s`, lower-cased. -/
def tagNameOf (s : List Byte) : List Byte := (s.take (scanTagName s)).map toLower

/-- Modelled from the spec: the seven HTML-block start conditions (section 4.2,
step 3); the result is the variant, 1 to 7. Variant 7 cannot interrupt a
paragraph. -/
def htmlBlockStart (s : List Byte) (inParagraph : Bool) : Option Nat :=
  match s with
  | [] => none
  | c :: rest =>
    if c ≠ 60 then none
    else
      let name := tagNameOf rest
      let after := rest.drop name.length
      let endsName : Bool :=
        match after with
        | [] => true
        | d :: _ => isSpaceOrTab d || d == 62
      if rawTagNames.contains name && endsName then some 1
      else if startsWith [33, 45, 45] rest then some 2
      else if startsWith [63] rest then some 3
      else if startsWith [33, 91, 67, 68, 65, 84, 65, 91] rest then some 5
      else if startsWith [33] rest && (match rest.drop 1 with
          | [] => false
          | d :: _ => isAlpha d) then some 4
      else
        let rest6 := if startsWith [47] rest then rest.drop 1 else rest
        let name6 := tagNameOf rest6
        let after6 := rest6.drop name6.length
        let ends6 : Bool :=
          match after6 with
          | [] => true
          | d :: _ => isSpaceOrTab d || d == 62 || startsWith [47, 62] after6
        if blockTagNames.contains name6 && ends6 then some 6
        else if inParagraph then none
        else
          let tag := if startsWith [47] rest then (scanCloseTag (rest.drop 1)).map (· + 2)
                     else (scanOpenTag rest).map (· + 1)
          match tag with
          | none => none
          | some n =>
            if ((c :: rest).drop n).all isWhitespace && !rawTagNames.contains name6 then some 7
            else none

/-- Modelled from the spec: the end condition of an HTML block of variant 1 to 5,
tested on a line of the block (section 4.2, steps 3 and 5); variants 6 and 7
end at a blank line instead. -/
def htmlBlockEnd (variant : Nat) (line : List Byte) : Bool :=
  if variant = 1 then
    containsSubCI (bytesOf "</script>") line || containsSubCI (bytesOf "</pre>") line
      || containsSubCI (bytesOf "</style>") line || containsSubCI (bytesOf "</textarea>") line
  else if variant = 2 then containsSub [45, 45, 62] line
  else if variant = 3 then containsSub [63, 62] line
  else if variant = 4 then containsSub [62] line
  else if variant = 5 then containsSub [93, 93, 62] line
  else false

/-! ## Escapes, entities and link syntax (specification sections 4.3 and 4.4) -/

/-- UTF-8 encoding of a code point; U+FFFD for zero, surrogates and values
beyond U+10FFFF. -/
def utf8Encode (cp : Nat) : List Byte :=
  if cp = 0 ∨ (0xD800 ≤ cp ∧ cp ≤ 0xDFFF) ∨ 0x10FFFF < cp then replacementChar
  else if cp < 0x80 then [cp]
  else if cp < 0x800 then [0xC0 + cp / 64, 0x80 + cp % 64]
  else if cp < 0x10000 then [0xE0 + cp / 4096, 0x80 + (cp / 64) % 64, 0x80 + cp % 64]
  else [0xF0 + cp / 262144, 0x80 + (cp / 4096) % 64, 0x80 + (cp / 64) % 64, 0x80 + cp % 64]

/-- Value of one hexadecimal digit. -/
def hexValue (c : Byte) : Nat :=
  if isDigit c then c - 48 else if 97 ≤ c then c - 87 else c - 55

/-- Modelled from the spec: named character references (section 4.3, "entity
decoding"). The HTML5 table is not part of the snapshot; this is the excerpt of
it that the model decodes, every other name is left as literal text. -/
def namedEntities : List (List Byte × List Byte) :=
  [(bytesOf "amp", [38]), (bytesOf "lt", [60]), (bytesOf "gt", [62]), (bytesOf "quot", [34]),
   (bytesOf "apos", [39]), (bytesOf "nbsp", utf8Encode 0xA0), (bytesOf "copy", utf8Encode 0xA9),
   (bytesOf "reg", utf8Encode 0xAE), (bytesOf "hellip", utf8Encode 0x2026),
   (bytesOf "mdash", utf8Encode 0x2014), (bytesOf "ndash", utf8Encode 0x2013),
   (bytesOf "lsquo", utf8Encode 0x2018), (bytesOf "rsquo", utf8Encode 0x2019),
   (bytesOf "ldquo", utf8Encode 0x201C), (bytesOf "rdquo", utf8Encode 0x201D),
   (bytesOf "auml", utf8Encode 0xE4), (bytesOf "ouml", utf8Encode 0xF6),
   (bytesOf "uuml", utf8Encode 0xFC), (bytesOf "AElig", utf8Encode 0xC6),
   (bytesOf "Dcaron", utf8Encode 0x10E), (bytesOf "frac34", utf8Encode 0xBE),
   (bytesOf "HilbertSpace", utf8Encode 0x210B), (bytesOf "DifferentialD", utf8Encode 0x2146),
   (bytesOf "ClockwiseContourIntegral", utf8Encode 0x2232), (bytesOf "ngE", utf8Encode 0x2267 ++ utf8Encode 0x338)]

/-- Character reference whose `&` has been consumed: the decoded bytes and the
number of bytes of the reference after the `&`. -/
def parseEntity (s : List Byte) : Option (List Byte × Nat) :=
  match s with
  | [] => none
  | c :: rest =>
    if c = 35 then
      match rest with
      | [] => none
      | d :: rest2 =>
        if d = 120 ∨ d = 88 then
          let n := spanLen isHexDigit rest2
          if 1 ≤ n ∧ n ≤ 6 ∧ startsWith [59] (rest2.drop n) then
            some (utf8Encode ((rest2.take n).foldl (fun acc h => acc * 16 + hexValue h) 0), n + 3)
          else none
        else
          let n := spanLen isDigit rest
          if 1 ≤ n ∧ n ≤ 7 ∧ startsWith [59] (rest.drop n) then
            some (utf8Encode (digitsValue (rest.take n)), n + 2)
          else none
    else
      let n := spanLen isAlnum s
      if 1 ≤ n ∧ startsWith [59] (s.drop n) then
        match namedEntities.lookup (s.take n) with
        | some bs => some (bs, n + 1)
        | none => none
      else none

/-- Worker of `unescape`; the second argument counts bytes still to be skipped. -/
def unescapeAux : List Byte → Nat → List Byte
  | [], _ => []
  | _ :: rest, k + 1 => unescapeAux rest k
  | c :: rest, 0 =>
    if c = 92 then
      match rest with
      | [] => [92]
      | d :: _ => if isAsciiPunct d then d :: unescapeAux rest 1 else 92 :: unescapeAux rest 0
    else if c = 38 then
      match parseEntity rest with
      | some (bs, n) => bs ++ unescapeAux rest n
      | none => 38 :: unescapeAux rest 0
    else c :: unescapeAux rest 0

/-- Resolve backslash escapes and character references. -/
def unescape (s : List Byte) : List Byte := unescapeAux s 0

/-- Length of a link label body up to its closing `]`: at most 999 bytes, no
unescaped bracket inside. -/
def scanLabelBody : List Byte → Nat → Bool → Option Nat
  | [], _, _ => none
  | c :: rest, n, esc =>
    if 999 < n then none
    else if esc then scanLabelBody rest (n + 1) false
    else if c = 92 then scanLabelBody rest (n + 1) true
    else if c = 91 then none
    else if c = 93 then some n
    else scanLabelBody rest (n + 1) false

/-- Link label `[...]` at the start of `s`: the raw body between the brackets. -/
def scanLinkLabel (s : List Byte) : Option (List Byte) :=
  match s with
  | [] => none
  | c :: rest =>
    if c = 91 then (scanLabelBody rest 0 false).map (fun n => rest.take n) else none

/-- Collapse every run of whitespace to one space. -/
def collapseSpaces : List Byte → Bool → List Byte
  | [], _ => []
  | c :: rest, inSpace =>
    if isWhitespace c then
      if inSpace then collapseSpaces rest true else 32 :: collapseSpaces rest true
    else c :: collapseSpaces rest false

/-- Modelled from the spec: label normalization (section 4.4): trim the ends,
collapse internal whitespace runs to a single space, case-fold. Case folding is
done for ASCII letters; other bytes are compared as they are. -/
def normalizeLabel (s : List Byte) : List Byte := (collapseSpaces (trim s) false).map toLower

/-- Length of a `<...>` link destination whose `<` has been consumed, counting
the closing `>`. -/
def scanDestAngle : List Byte → Nat → Bool → Option Nat
  | [], _, _ => none
  | c :: rest, n, esc =>
    if c = 10 ∨ c = 13 then none
    else if esc then scanDestAngle rest (n + 1) false
    else if c = 92 then scanDestAngle rest (n + 1) true
    else if c = 60 then none
    else if c = 62 then some (n + 1)
    else scanDestAngle rest (n + 1) false

/-- Length of a bare link destination: it ends at whitespace, a control
character or an unbalanced `)`; parentheses must balance. -/
def scanDestPlain : List Byte → Nat → Nat → Bool → Option Nat
  | [], n, depth, _ => if depth = 0 then some n else none
  | c :: rest, n, depth, esc =>
    if esc ∧ isAsciiPunct c then scanDestPlain rest (n + 1) depth false
    else if c = 92 then scanDestPlain rest (n + 1) depth true
    else if c = 40 then
      if 32 ≤ depth then none else scanDestPlain rest (n + 1) (depth + 1) false
    else if c = 41 then
      if depth = 0 then some n else scanDestPlain rest (n + 1) (depth - 1) false
    else if isWhitespace c || isControl c then (if depth = 0 then some n else none)
    else scanDestPlain rest (n + 1) depth false

/-- Link destination at the start of `s`: its length in the source and its
value with escapes resolved. -/
def scanLinkDest (s : List Byte) : Option (Nat × List Byte) :=
  match s with
  | [] => some (0, [])
  | c :: rest =>
    if c = 60 then
      (scanDestAngle rest 0 false).map (fun n => (n + 1, unescape (rest.take (n - 1))))
    else (scanDestPlain s 0 0 false).map (fun n => (n, unescape (s.take n)))

/-- Length of a title body up to the closing byte `close`; inside a
parenthesised title an unescaped `(` is not allowed. -/
def scanTitleBody (close : Byte) : List Byte → Nat → Bool → Option Nat
  | [], _, _ => none
  | c :: rest, n, esc =>
    if esc then scanTitleBody close rest (n + 1) false
    else if c = 92 then scanTitleBody close rest (n + 1) true
    else if c = close then some n
    else if close = 41 ∧ c = 40 then none
    else scanTitleBody close rest (n + 1) false

/-- Link title at the start of `s`, in double quotes, single quotes or
parentheses: its length in the source and its value with escapes resolved. -/
def scanLinkTitle (s : List Byte) : Option (Nat × List Byte) :=
  match s with
  | [] => none
  | c :: rest =>
    if c = 34 ∨ c = 39 ∨ c = 40 then
      (scanTitleBody (if c = 40 then 41 else c) rest 0 false).map
        (fun n => (n + 2, unescape (rest.take n)))
    else none

/-- Length of: spaces or tabs, at most one line ending, spaces or tabs. -/
def spnl (s : List Byte) : Nat :=
  let a := spanLen isSpaceOrTab s
  match s.drop a with
  | [] => a
  | c :: rest => if c = 10 then a + 1 + spanLen isSpaceOrTab rest else a

/-- Modelled from the spec: an entry of the Link-Reference Table (section 3):
normalized label, destination URL and optional title. -/
structure RefDef where
  label : List Byte
  dest : List Byte
  title : Option (List Byte)
  deriving DecidableEq, Repr

/-- Modelled from the spec: insertion into the Link-Reference Table, the first
definition for a given label wins (section 3). -/
def addRef (refs : List RefDef) (r : RefDef) : List RefDef :=
  if refs.any (fun x => x.label == r.label) then refs else refs ++ [r]

/-- Modelled from the spec: look up a candidate label in the Link-Reference
Table after normalizing it (section 4.4). -/
def lookupRef (refs : List RefDef) (label : List Byte) : Option RefDef :=
  let l := normalizeLabel label
  if l.isEmpty then none else refs.find? (fun x => x.label == l)

/-- Whether `s` is at the end of a line after optional spaces and tabs; the
result counts the bytes up to and including the line ending. -/
def atLineEnd (s : List Byte) : Option Nat :=
  let a := spanLen isSpaceOrTab s
  match s.drop a with
  | [] => some a
  | c :: _ => if c = 10 then some (a + 1) else none

/-- Modelled from the spec: one link-reference definition `[label]: dest "title"`
at the start of a paragraph's text (section 4.2, step 6). The result is the
table entry and the number of bytes the definition occupies. -/
def parseReference (s : List Byte) : Option (RefDef × Nat) :=
  match scanLinkLabel s with
  | none => none
  | some lab =>
    let n1 := lab.length + 2
    if startsWith [58] (s.drop n1) = false ∨ (normalizeLabel lab).isEmpty then none
    else
      let a := spnl (s.drop (n1 + 1))
      let n2 := n1 + 1 + a
      match scanLinkDest (s.drop n2) with
      | none => none
      | some (dn, dest) =>
        if dn = 0 then none
        else
          let n3 := n2 + dn
          let b := spnl (s.drop n3)
          let withTitle : Option (RefDef × Nat) :=
            if b = 0 then none
            else
              match scanLinkTitle (s.drop (n3 + b)) with
              | none => none
              | some (tn, title) =>
                match atLineEnd (s.drop (n3 + b + tn)) with
                | none => none
                | some e => some (⟨normalizeLabel lab, dest, some title⟩, n3 + b + tn + e)
          match withTitle with
          | some r => some r
          | none =>
            match atLineEnd (s.drop n3) with
            | none => none
            | some e => some (⟨normalizeLabel lab, dest, none⟩, n3 + e)

/-- Modelled from the spec: remove the link-reference definitions at the start
of a paragraph's text and insert them into the table (section 4.2, step 6).
Every definition consumes at least one byte, so `fuel = text.length` is never
exhausted. -/
def extractReferences : Nat → List RefDef → List Byte → List RefDef × List Byte
  | 0, refs, s => (refs, s)
  | fuel + 1, refs, s =>
    match parseReference s with
    | none => (refs, s)
    | some (r, n) => extractReferences fuel (addRef refs r) (s.drop n)

/-! ## Block parser (specification section 4.2) -/

/-- Modelled from the spec: the block kinds handled during block parsing, with
the data the open-block-stack algorithm needs for each (section 4.2). -/
inductive BlockKind where
  | document
  | blockQuote
  | list (ordered : Bool) (start : Nat) (delim : Byte) (tight : Bool)
  | item (markerOffset : Nat) (padding : Nat) (startLine : Nat)
  | heading (level : Nat)
  | paragraph
  | codeBlock (fenced : Bool) (fenceChar : Byte) (fenceLen : Nat) (fenceOffset : Nat)
  | htmlBlock (variant : Nat)
  | thematicBreak
  deriving DecidableEq, Repr

/-- Modelled from the spec: a closed block of the block tree: kind, children in
source order, accumulated raw text, and whether a blank line followed it. -/
inductive Block where
  | mk (kind : BlockKind) (children : List Block) (content : List Byte) (lastLineBlank : Bool)
  deriving Repr

/-- Kind of a closed block. -/
def Block.kind : Block → BlockKind
  | .mk k _ _ _ => k

/-- Whether a blank line followed the block. -/
def Block.lastLineBlank : Block → Bool
  | .mk _ _ _ b => b

/-- Record whether a blank line followed the block. -/
def Block.setLastLineBlank (v : Bool) : Block → Block
  | .mk k cs c _ => .mk k cs c v

/-- Modelled from the spec: an entry of the Open-Block Stack (section 3): an
unclosed block with its closed children (most recent first) and raw text. -/
structure OpenBlock where
  kind : BlockKind
  children : List Block
  content : List Byte
  lastLineBlank : Bool
  deriving Repr

/-- Modelled from the spec: the state of one parse (section 5): the Open-Block
Stack, deepest open block first and the document last, the Link-Reference Table
and the number of the current line. -/
structure ParserState where
  stack : List OpenBlock
  refs : List RefDef
  lineNumber : Nat
  deriving Repr

mutual
/-- Whether a block ends with a blank line: its own flag, or for a list or list
item the same question asked of its last child. -/
def endsWithBlankLine : Block → Bool
  | .mk k cs _ blank =>
    blank ||
    (match k with
     | .list _ _ _ _ => endsWithBlankLineLast cs
     | .item _ _ _ => endsWithBlankLineLast cs
     | _ => false)
/-- The same question asked of the last block of a sequence. -/
def endsWithBlankLineLast : List Block → Bool
  | [] => false
  | c :: cs => if cs.isEmpty then endsWithBlankLine c else endsWithBlankLineLast cs
end

/-- Whether some child of a list item is followed by a blank line and then by
more content of the item or by another item. -/
def subitemsLoose (itemHasNext : Bool) : List Block → Bool
  | [] => false
  | b :: rest =>
    ((itemHasNext || !rest.isEmpty) && endsWithBlankLine b) || subitemsLoose itemHasNext rest

/-- Modelled from the spec: a list is loose if any item is separated from its
content or the next item by a blank line (section 4.2, step 4). -/
def listLoose : List Block → Bool
  | [] => false
  | it :: rest =>
    (it.lastLineBlank && !rest.isEmpty)
      || (match it with
          | .mk _ subs _ _ => subitemsLoose (!rest.isEmpty) subs)
      || listLoose rest

/-- Text of an indented code block without its trailing blank lines, ended by
one line feed. -/
def stripTrailingBlankLines (content : List Byte) : List Byte :=
  let rev := content.reverse
  let core := (rev.dropWhile isWhitespace).reverse
  let trailing := (rev.takeWhile isWhitespace).reverse
  core ++ trailing.takeWhile (fun c => c != 10) ++ [10]

/-- Modelled from the spec: closing a block (section 4.2, steps 4 and 6). A
paragraph gives its leading link-reference definitions to the table and
disappears when nothing else is left; a list gets its tightness; an indented
code block loses its trailing blank lines. -/
def finalizeBlock (refs : List RefDef) (ob : OpenBlock) : Option Block × List RefDef :=
  match ob.kind with
  | .paragraph =>
    let r := extractReferences ob.content.length refs ob.content
    if isBlank r.2 then (none, r.1)
    else (some (.mk .paragraph [] r.2 ob.lastLineBlank), r.1)
  | .list ordered start delim _ =>
    (some (.mk (.list ordered start delim (!listLoose ob.children.reverse))
      ob.children.reverse ob.content ob.lastLineBlank), refs)
  | .codeBlock fenced c n off =>
    (some (.mk (.codeBlock fenced c n off) []
      (if fenced then ob.content else stripTrailingBlankLines ob.content) ob.lastLineBlank), refs)
  | k => (some (.mk k ob.children.reverse ob.content ob.lastLineBlank), refs)

/-- Close the deepest open block and hand it to its parent. The document at the
bottom of the stack is never closed here. -/
def closeTip (st : ParserState) : ParserState :=
  match st.stack with
  | tip :: parent :: rest =>
    let r := finalizeBlock st.refs tip
    { st with
      stack := { parent with children := r.1.toList ++ parent.children } :: rest
      refs := r.2 }
  | _ => st

/-- Close the `n` deepest open blocks. -/
def closeN : Nat → ParserState → ParserState
  | 0, st => st
  | n + 1, st => closeN n (closeTip st)

/-- Kind of the open block `depth` levels above the deepest one. -/
def kindAt (st : ParserState) (depth : Nat) : BlockKind :=
  match st.stack.drop depth with
  | [] => .document
  | ob :: _ => ob.kind

/-- Whether a block of kind `parent` may contain a block of kind `child`. -/
def canContain (parent child : BlockKind) : Bool :=
  match parent, child with
  | .list _ _ _ _, .item _ _ _ => true
  | .list _ _ _ _, _ => false
  | .document, .item _ _ _ => false
  | .blockQuote, .item _ _ _ => false
  | .item _ _ _, .item _ _ _ => false
  | .document, _ => true
  | .blockQuote, _ => true
  | .item _ _ _, _ => true
  | _, _ => false

/-- Close open blocks until the deepest one may contain `child`; at most
`fuel` blocks are closed and the caller passes the stack height. -/
def closeUntilContains (child : BlockKind) : Nat → ParserState → ParserState
  | 0, st => st
  | fuel + 1, st =>
    if canContain (kindAt st 0) child then st
    else closeUntilContains child fuel (closeTip st)

/-- Open a new block of the given kind below the deepest block that may
contain it. -/
def pushOpen (st : ParserState) (kind : BlockKind) : ParserState :=
  let st1 := closeUntilContains kind st.stack.length st
  { st1 with stack := ⟨kind, [], [], false⟩ :: st1.stack }

/-- Add a block that is complete on its line (thematic break, heading). -/
def addLeaf (st : ParserState) (kind : BlockKind) (content : List Byte) : ParserState :=
  let st1 := closeUntilContains kind st.stack.length st
  match st1.stack with
  | [] => st1
  | tip :: rest =>
    { st1 with stack := { tip with children := .mk kind [] content false :: tip.children } :: rest }

/-- Append a line and its line feed to the raw text of the deepest open block. -/
def appendLine (st : ParserState) (line : List Byte) : ParserState :=
  match st.stack with
  | [] => st
  | tip :: rest => { st with stack := { tip with content := tip.content ++ line ++ [10] } :: rest }

/-- Outcome of testing the continuation condition of one open block. -/
inductive MatchResult where
  | cont (cur : Cursor)
  | fail
  | fenceClose
  deriving Repr

/-- Modelled from the spec: the continuation condition of an open block
(section 4.2, steps 1 and 5); matched prefix characters are consumed.
`hasChild` tells whether the block has any child, closed or open. -/
def continues (ob : OpenBlock) (hasChild : Bool) (cur : Cursor) : MatchResult :=
  match ob.kind with
  | .blockQuote =>
    if cur.indent ≤ 3 ∧ startsWith [62] cur.body then
      .cont (Cursor.optionalSpace ⟨cur.col + cur.indent + 1, cur.body.drop 1⟩)
    else .fail
  | .item off pad _ =>
    if off + pad ≤ cur.indent then .cont (advanceCols cur.rest (off + pad) cur.col)
    else if cur.blank ∧ hasChild then .cont cur.toBody
    else .fail
  | .codeBlock fenced c n off =>
    if fenced then
      if cur.indent ≤ 3 ∧ scanCloseFence c n cur.body then .fenceClose
      else .cont (advanceCols cur.rest off cur.col)
    else if 4 ≤ cur.indent then .cont (advanceCols cur.rest 4 cur.col)
    else if cur.blank then .cont cur.toBody
    else .fail
  | .htmlBlock v => if (v = 6 ∨ v = 7) ∧ cur.blank then .fail else .cont cur
  | .paragraph => if cur.blank then .fail else .cont cur
  | .heading _ => .fail
  | .thematicBreak => .fail
  | .list _ _ _ _ => .cont cur
  | .document => .cont cur

/-- Modelled from the spec: walk the Open-Block Stack from the document downwards
and stop at the first block whose continuation condition fails (section 4.2,
steps 1 and 2). The blocks are given outermost first; the result is the number
of matched blocks, the cursor after the matched prefixes, and whether the line
was the closing fence of the deepest block. -/
def checkOpenBlocks : List OpenBlock → Cursor → Nat → Nat × Cursor × Bool
  | [], cur, n => (n, cur, false)
  | ob :: rest, cur, n =>
    match continues ob (!ob.children.isEmpty || !rest.isEmpty) cur with
    | .cont cur2 => checkOpenBlocks rest cur2 (n + 1)
    | .fail => (n, cur, false)
    | .fenceClose => (n + 1, cur, true)

/-- Outcome of looking for new block starts on a line: the line is used up, or
what is left of it is text for the deepest block; `unmatched` counts the open
blocks whose continuation failed and that are still on the stack. -/
inductive OpenResult where
  | done (st : ParserState)
  | text (st : ParserState) (unmatched : Nat) (cur : Cursor)
  deriving Repr

/-- Setext underline below a matched paragraph: the paragraph first gives up its
link-reference definitions; what is left becomes the heading, and if nothing is
left the underline is ordinary text. -/
def setextHeading (st : ParserState) (level : Nat) (cur : Cursor) : OpenResult :=
  match st.stack with
  | tip :: parent :: rest =>
    let r := extractReferences tip.content.length st.refs tip.content
    if isBlank r.2 then
      .text { st with stack := { tip with content := r.2 } :: parent :: rest, refs := r.1 } 0 cur
    else
      .done { st with
        stack := { parent with children := .mk (.heading level) [] r.2 false :: parent.children }
          :: rest
        refs := r.1 }
  | _ => .text st 0 cur

/-- Open a list item, and a list around it unless the container is a list with
the same marker type and delimiter; the cursor moves past the marker and the
spaces that belong to it. -/
def openListItem (st : ParserState) (m : ListMarker) (cur : Cursor) : ParserState × Cursor :=
  let cur1 : Cursor := ⟨cur.col + cur.indent + m.width, cur.body.drop m.width⟩
  let w := cur1.indent
  let wide : Bool := decide (5 ≤ w) || decide (w < 1) || cur1.blank
  let padding := if wide then m.width + 1 else m.width + w
  let cur2 := if wide then cur1.optionalSpace else advanceCols cur1.rest w cur1.col
  let sameList : Bool :=
    match kindAt st 0 with
    | .list ordered _ delim _ => ordered == m.ordered && delim == m.delim
    | _ => false
  let st1 := if sameList then st else pushOpen st (.list m.ordered m.start m.delim true)
  (pushOpen st1 (.item cur.indent padding st.lineNumber), cur2)

/-- Modelled from the spec: try to open new blocks at the current position in
the priority order of section 4.2, step 3: thematic break, ATX heading, fenced
code block, HTML block, block quote marker, list item marker, indented code
block, setext heading; otherwise the rest of the line is text. Opening a block
first closes the blocks whose continuation failed. Every container start
consumes at least one byte, so `fuel = line length + 1` is never exhausted. -/
def openNewBlocks : Nat → ParserState → Nat → Cursor → OpenResult
  | 0, st, um, cur => .text st um cur
  | fuel + 1, st, um, cur =>
    let ckind := kindAt st um
    let indented : Bool := decide (4 ≤ cur.indent)
    let s := cur.body
    match ckind with
    | .codeBlock _ _ _ _ => .text st um cur
    | .htmlBlock _ => .text st um cur
    | _ =>
      if !indented && scanThematicBreak s then
        .done (addLeaf (closeN um st) .thematicBreak [])
      else
      match (if indented then none else scanAtxStart s) with
      | some lvl => .done (addLeaf (closeN um st) (.heading lvl) (atxContent (s.drop lvl)))
      | none =>
      match (if indented then none else scanOpenFence s) with
      | some (c, n) =>
        .text (pushOpen (closeN um st) (.codeBlock true c n cur.indent)) 0
          ⟨cur.col + cur.indent + n, s.drop n⟩
      | none =>
      match (if indented then none else htmlBlockStart s (ckind == .paragraph)) with
      | some v => .text (pushOpen (closeN um st) (.htmlBlock v)) 0 cur
      | none =>
      if !indented && startsWith [62] s then
        openNewBlocks fuel (pushOpen (closeN um st) .blockQuote) 0
          (Cursor.optionalSpace ⟨cur.col + cur.indent + 1, s.drop 1⟩)
      else
      match (if indented then none else parseListMarker s (ckind == .paragraph)) with
      | some m =>
        let r := openListItem (closeN um st) m cur
        openNewBlocks fuel r.1 0 r.2
      | none =>
      if indented && !(kindAt st 0 == .paragraph) && !cur.blank then
        .text (pushOpen (closeN um st) (.codeBlock false 0 0 0)) 0 (advanceCols cur.rest 4 cur.col)
      else
      match (if !indented && ckind == .paragraph then scanSetext s else none) with
      | some lvl => setextHeading st lvl cur
      | none => .text st um cur

/-- Mark the last entry of a sequence of open blocks as followed by a blank line. -/
def flagLastOpen (l : List OpenBlock) : List OpenBlock :=
  match l.reverse with
  | [] => l
  | child :: above => ({ child with lastLineBlank := true } :: above).reverse

/-- Mark the most recent closed child as followed by a blank line. -/
def flagFirstChild : List Block → List Block
  | [] => []
  | b :: bs => b.setLastLineBlank true :: bs

/-- Whether a blank line counts for the container itself: not for a block
quote, a heading, a thematic break or a fenced code block, and not for a list
item that is still empty on the line that opened it. -/
def blankCounts (c : OpenBlock) (hasOpenChild : Bool) (lineNumber : Nat) : Bool :=
  match c.kind with
  | .blockQuote => false
  | .heading _ => false
  | .thematicBreak => false
  | .codeBlock fenced _ _ _ => !fenced
  | .item _ _ startLine => !(c.children.isEmpty && !hasOpenChild && startLine == lineNumber)
  | _ => true

/-- Modelled from the spec: blank-line bookkeeping for list tightness (section
4.2, step 4). On a blank line the last child of the container is marked; the
container is marked unless it is a block quote, a heading, a thematic break, a
fenced code block or a list item that is still empty on its first line; the
ancestors of the container are unmarked. -/
def setBlankFlags (st : ParserState) (um : Nat) (blank : Bool) : ParserState :=
  match st.stack.drop um with
  | [] => st
  | c :: ancestors =>
    let unmatched := st.stack.take um
    { st with
      stack := (if blank then flagLastOpen unmatched else unmatched) ++
        { c with
          children := if blank && unmatched.isEmpty then flagFirstChild c.children else c.children
          lastLineBlank := blank && blankCounts c (!unmatched.isEmpty) st.lineNumber } ::
          ancestors.map (fun a => { a with lastLineBlank := false }) }

/-- Modelled from the spec: add what is left of the line to the tree (section
4.2, steps 2 and 5). A non-blank line that opened no block continues an
unmatched paragraph lazily; otherwise the unmatched blocks are closed and the
text goes to the code block, HTML block or paragraph it belongs to. -/
def addText (st : ParserState) (um : Nat) (cur : Cursor) : ParserState :=
  let st1 := setBlankFlags st um cur.blank
  let isLazy : Bool :=
    decide (0 < um) && !cur.blank &&
      (match st1.stack with
       | [] => false
       | tip :: _ => tip.kind == .paragraph && !tip.content.isEmpty)
  if isLazy then appendLine st1 cur.rest
  else
    let st2 := closeN um st1
    match kindAt st2 0 with
    | .codeBlock _ _ _ _ => appendLine st2 cur.rest
    | .htmlBlock v =>
      if htmlBlockEnd v cur.rest then closeTip (appendLine st2 cur.rest)
      else appendLine st2 cur.rest
    | .paragraph => if cur.blank then st2 else appendLine st2 cur.body
    | _ => if cur.blank then st2 else appendLine (pushOpen st2 .paragraph) cur.body

/-- Modelled from the spec: process one logical line (section 4.2, steps 1 to 5). -/
def processLine (st0 : ParserState) (text : List Byte) : ParserState :=
  let st := { st0 with lineNumber := st0.lineNumber + 1 }
  let m := checkOpenBlocks (st.stack.reverse.drop 1) ⟨0, text⟩ 1
  if m.2.2 then closeTip st
  else
    match openNewBlocks (text.length + 1) st (st.stack.length - m.1) m.2.1 with
    | .done st2 => st2
    | .text st2 um cur => addText st2 um cur

/-- The state before the first line: only the document is open. -/
def initialState : ParserState := ⟨[⟨.document, [], [], false⟩], [], 0⟩

/-- Modelled from the spec: block parsing of all lines, then closing of every
block that is still open; the result is the block at the bottom of the stack
and the completed Link-Reference Table (section 4.2, section 9 first note). -/
def parseBlocks (lines : List Line) : Block × List RefDef :=
  let st := lines.foldl (fun st l => processLine st l.text) initialState
  let st1 := closeN st.stack.length st
  match st1.stack with
  | [] => (.mk .document [] [] false, st1.refs)
  | root :: _ => (.mk root.kind root.children.reverse root.content root.lastLineBlank, st1.refs)

/-! ## Inline parser: delimiter stack (specification section 4.3) -/

/-- A text node. -/
def textNode (bs : List Byte) : Node := .mk (.text bs) []

/-- Modelled from the spec: an entry of the inline sequence under construction
(section 3, Delimiter Stack): a finished inline node, a run of emphasis (or
quote) delimiters with its current and original length and its can-open and
can-close flags, or a link or image opener with its active flag, whether
another bracket follows it, and the source position after it. -/
inductive Item where
  | node (n : Node)
  | delim (ch : Byte) (count : Nat) (orig : Nat) (canOpen : Bool) (canClose : Bool)
  | bracket (image : Bool) (active : Bool) (bracketAfter : Bool) (pos : Nat)
  deriving Repr

/-- Literal text of a delimiter run that was not used up. Quote delimiters
exist only under smart punctuation and read as curly quotes. -/
def delimText (ch : Byte) (count : Nat) (canClose : Bool) : List Byte :=
  if ch = 39 then utf8Encode 0x2019
  else if ch = 34 then (if canClose then utf8Encode 0x201D else utf8Encode 0x201C)
  else List.replicate count ch

/-- Modelled from the spec: unmatched openers and unused delimiters are
converted back to literal text (section 4.3). -/
def Item.toNode : Item → Node
  | .node n => n
  | .delim ch count _ _ canClose => textNode (delimText ch count canClose)
  | .bracket image _ _ _ => textNode (if image then [33, 91] else [91])

/-- The code point that starts `s`; a line feed stands for the end of the text. -/
def decodeFirst (s : List Byte) : Nat :=
  match s with
  | [] => 10
  | b0 :: r =>
    if b0 < 0x80 then b0
    else
      match r with
      | [] => 0xFFFD
      | b1 :: r1 =>
        if b0 < 0xE0 then (b0 % 32) * 64 + b1 % 64
        else
          match r1 with
          | [] => 0xFFFD
          | b2 :: r2 =>
            if b0 < 0xF0 then (b0 % 16) * 4096 + (b1 % 64) * 64 + b2 % 64
            else
              match r2 with
              | [] => 0xFFFD
              | b3 :: _ => (b0 % 8) * 262144 + (b1 % 64) * 4096 + (b2 % 64) * 64 + b3 % 64

/-- The code point that ends the text whose bytes are given in reverse; a line
feed stands for the start of the text. -/
def decodeLast (rev : List Byte) : Nat :=
  match rev with
  | [] => 10
  | b :: _ =>
    if b < 0x80 then b
    else
      let conts := (rev.takeWhile isCont).take 3
      match rev.drop conts.length with
      | [] => 0xFFFD
      | lead :: _ => decodeFirst (lead :: conts.reverse)

/-- Unicode whitespace code point. -/
def isUnicodeWhitespace (cp : Nat) : Bool :=
  cp == 9 || cp == 10 || cp == 12 || cp == 13 || cp == 32 || cp == 0xA0 || cp == 0x1680
    || (decide (0x2000 ≤ cp) && decide (cp ≤ 0x200A)) || cp == 0x202F || cp == 0x205F
    || cp == 0x3000

/-- Modelled from the spec: punctuation code points for the flanking rules
(section 4.3, section 9 open question). The full Unicode category table is not
part of the snapshot; ASCII punctuation is complete, beyond ASCII this is the
Latin-1, General Punctuation and CJK punctuation excerpt. -/
def isUnicodePunct (cp : Nat) : Bool :=
  (decide (cp < 128) && isAsciiPunct cp)
    || cp == 0xA1 || cp == 0xA7 || cp == 0xAB || cp == 0xB6 || cp == 0xB7 || cp == 0xBB
    || cp == 0xBF
    || (decide (0x2010 ≤ cp) && decide (cp ≤ 0x2027))
    || (decide (0x2030 ≤ cp) && decide (cp ≤ 0x205E))
    || (decide (0x3001 ≤ cp) && decide (cp ≤ 0x3003))
    || (decide (0x3008 ≤ cp) && decide (cp ≤ 0x3011))
    || (decide (0x3014 ≤ cp) && decide (cp ≤ 0x301F))

/-- Modelled from the spec: the can-open and can-close flags of a delimiter run
from the code points before and after it (section 4.3, left- and right-flanking
rules with the intraword-underscore restriction). -/
def delimFlags (ch : Byte) (before after : Nat) : Bool × Bool :=
  let leftFlanking : Bool := !isUnicodeWhitespace after &&
    (!isUnicodePunct after || isUnicodeWhitespace before || isUnicodePunct before)
  let rightFlanking : Bool := !isUnicodeWhitespace before &&
    (!isUnicodePunct before || isUnicodeWhitespace after || isUnicodePunct after)
  if ch = 95 then
    (leftFlanking && (!rightFlanking || isUnicodePunct before),
     rightFlanking && (!leftFlanking || isUnicodePunct after))
  else if ch = 39 ∨ ch = 34 then
    (leftFlanking && !rightFlanking && before != 93 && before != 41, rightFlanking)
  else (leftFlanking, rightFlanking)

/-- Modelled from the spec: the multiples-of-3 exclusion (section 4.3, (a)), in
its canonical form: when the opener can also close or the closer can also open,
the sum of the original run lengths must not be a multiple of 3 unless both
lengths are multiples of 3. The result tells whether the pair may match. -/
def ruleOfThree (openerOrig closerOrig : Nat) (openerCanClose closerCanOpen : Bool) : Bool :=
  !(openerCanClose || closerCanOpen) || closerOrig % 3 == 0
    || (openerOrig + closerOrig) % 3 != 0

/-- A matching opener found on the stack. -/
structure OpenerMatch where
  inner : List Item
  count : Nat
  orig : Nat
  canOpen : Bool
  canClose : Bool
  outer : List Item
  deriving Repr

/-- Modelled from the spec: look down the stack (nearest entry first) for the
nearest opener that the closer may match (section 4.3, second pass): same
delimiter character, able to open, and not excluded by the rule of 3. -/
def findOpener (ch : Byte) (closerOrig : Nat) (closerCanOpen : Bool) :
    List Item → Option OpenerMatch
  | [] => none
  | it :: rest =>
    let deeper := (findOpener ch closerOrig closerCanOpen rest).map
      (fun m => { m with inner := it :: m.inner })
    match it with
    | .delim ch2 count orig canOpen canClose =>
      if ch2 = ch ∧ canOpen = true ∧ ruleOfThree orig closerOrig canClose closerCanOpen = true then
        some ⟨[], count, orig, canOpen, canClose, rest⟩
      else deeper
    | _ => deeper

/-- The stack after one match: the entries between opener and closer become the
children of an emphasis node (one delimiter used on each side) or of a strong
node (two used on each side); what is left of the opener stays below it. -/
def wrapEmphasis (ch : Byte) (m : OpenerMatch) (use : Nat) : List Item :=
  let kids := m.inner.reverse.map Item.toNode
  let nd := Node.mk (if use = 2 then .strong else .emphasis) kids
  if m.count - use = 0 then .node nd :: m.outer
  else .node nd :: .delim ch (m.count - use) m.orig m.canOpen m.canClose :: m.outer

/-- Modelled from the spec: let a closer of `count` delimiters close openers
until it is used up or no opener matches (section 4.3, second pass). The result
is the new stack and the number of delimiters left in the closer. -/
def closeDelim (ch : Byte) (orig : Nat) (canOpen : Bool) : Nat → List Item → List Item × Nat
  | 0, left => (left, 0)
  | 1, left =>
    match findOpener ch orig canOpen left with
    | none => (left, 1)
    | some m => (wrapEmphasis ch m 1, 0)
  | n + 2, left =>
    match findOpener ch orig canOpen left with
    | none => (left, n + 2)
    | some m =>
      if 2 ≤ m.count then closeDelim ch orig canOpen n (wrapEmphasis ch m 2)
      else closeDelim ch orig canOpen (n + 1) (wrapEmphasis ch m 1)

/-- Modelled from the spec: delimiter resolution (section 4.3, second pass).
`left` is the stack of entries already passed (nearest first), the second list
the entries still to come. A quote closer turns itself and its opener into
curly quotes without wrapping anything. -/
def procEmphAux : List Item → List Item → List Item
  | left, [] => left
  | left, it :: rest =>
    match it with
    | .delim ch count orig canOpen canClose =>
      if canClose then
        if ch = 39 ∨ ch = 34 then
          match findOpener ch orig canOpen left with
          | some m =>
            procEmphAux
              (.node (textNode (utf8Encode (if ch = 39 then 0x2019 else 0x201D))) :: m.inner ++
                .node (textNode (utf8Encode (if ch = 39 then 0x2018 else 0x201C))) :: m.outer)
              rest
          | none => procEmphAux (it :: left) rest
        else
          let r := closeDelim ch orig canOpen count left
          if r.2 = 0 then procEmphAux r.1 rest
          else procEmphAux (.delim ch r.2 orig canOpen canClose :: r.1) rest
      else procEmphAux (it :: left) rest
    | _ => procEmphAux (it :: left) rest

/-- Resolve the delimiters of a sequence of entries given in source order; the
result is the sequence of inline nodes. -/
def procEmph (items : List Item) : List Node :=
  (procEmphAux [] items).reverse.map Item.toNode

/-! ## Inline parser: scan (specification section 4.3) -/

/-- Bytes at which a run of ordinary text ends. -/
def isSpecial (smart : Bool) (c : Byte) : Bool :=
  c == 10 || c == 13 || c == 96 || c == 92 || c == 38 || c == 60 || c == 42 || c == 95
    || c == 91 || c == 93 || c == 33
    || (smart && (c == 34 || c == 39 || c == 46 || c == 45))

/-- Index of the start of the first run of exactly `n` backticks; `pos` is the
index of the head of the list and `run` the length of the run that ends there. -/
def findTicks (n : Nat) : List Byte → Nat → Nat → Option Nat
  | [], pos, run => if run = n ∧ 0 < run then some (pos - run) else none
  | c :: rest, pos, run =>
    if c = 96 then findTicks n rest (pos + 1) (run + 1)
    else if run = n ∧ 0 < run then some (pos - run)
    else findTicks n rest (pos + 1) 0

/-- Content of a code span: line endings become spaces, and one space is
stripped from each end when both ends have one and the content is not all spaces. -/
def codeContent (raw : List Byte) : List Byte :=
  let s := raw.map (fun c => if c = 10 then 32 else c)
  match s with
  | [] => []
  | c :: rest =>
    if c = 32 ∧ s.getLast? = some 32 ∧ s.all (fun d => d == 32) = false then rest.dropLast
    else s

/-- Length of the scheme and the rest of an absolute URI up to the closing `>`,
for an autolink whose `<` has been consumed. -/
def scanAutolinkUri (s : List Byte) : Option Nat :=
  match s with
  | [] => none
  | c :: rest =>
    if isAlpha c then
      let n := spanLen (fun d => isAlnum d || d == 43 || d == 46 || d == 45) rest
      if 1 ≤ n ∧ n ≤ 31 ∧ startsWith [58] (rest.drop n) then
        let body := rest.drop (n + 1)
        let m := spanLen (fun d => !(decide (d ≤ 32) || d == 60 || d == 62 || d == 127)) body
        if startsWith [62] (body.drop m) then some (1 + n + 1 + m) else none
      else none
    else none

/-- Whether the bytes form the domain of an email autolink: labels of letters,
digits and hyphens, separated by dots, at most 63 bytes each, not starting or
ending with a hyphen. `len` is the length of the current label and `last` its
last byte (zero at the start of a label). -/
def validDomain : List Byte → Nat → Byte → Bool
  | [], len, last => decide (0 < len) && last != 45
  | c :: rest, len, last =>
    if c = 46 then decide (0 < len) && last != 45 && validDomain rest 0 0
    else if isAlnum c then decide (len < 63) && validDomain rest (len + 1) c
    else if c = 45 then decide (0 < len) && decide (len < 63) && validDomain rest (len + 1) c
    else false

/-- Length of an email address up to the closing `>`, for an autolink whose `<`
has been consumed. -/
def scanAutolinkEmail (s : List Byte) : Option Nat :=
  let n := spanLen (fun d => isAlnum d || (bytesOf ".!#$%&*+/=?^_-~|").contains d
    || d == 39 || d == 96 || d == 123 || d == 125) s
  if 1 ≤ n ∧ startsWith [64] (s.drop n) then
    let dom := s.drop (n + 1)
    let m := spanLen (fun d => d != 62) dom
    if startsWith [62] (dom.drop m) ∧ validDomain (dom.take m) 0 0 = true then some (n + 1 + m)
    else none
  else none

/-- Smart punctuation for a run of `n` hyphens: em dashes followed by en dashes. -/
def smartDashes (n : Nat) : List Byte :=
  let counts : Nat × Nat :=
    if n % 3 = 0 then (n / 3, 0)
    else if n % 2 = 0 then (0, n / 2)
    else if n % 3 = 2 then ((n - 2) / 3, 1)
    else ((n - 4) / 3, 2)
  (List.replicate counts.1 (utf8Encode 0x2014)).flatten ++
    (List.replicate counts.2 (utf8Encode 0x2013)).flatten

/-- An opener found on the stack by a closing bracket. -/
structure BracketMatch where
  inner : List Item
  image : Bool
  active : Bool
  bracketAfter : Bool
  pos : Nat
  outer : List Item
  deriving Repr

/-- Modelled from the spec: `]` looks left for the nearest unmatched `[` or `![`
(section 4.3, (b)). -/
def findBracket : List Item → Option BracketMatch
  | [] => none
  | it :: rest =>
    match it with
    | .bracket image active bracketAfter pos => some ⟨[], image, active, bracketAfter, pos, rest⟩
    | _ => (findBracket rest).map (fun m => { m with inner := it :: m.inner })

/-- Modelled from the spec: once a link is resolved, the `[` openers before it
are deactivated, not removed, so that no link comes to contain it (section 4.3,
(b)); image openers stay active. -/
def deactivate : List Item → List Item
  | [] => []
  | it :: rest =>
    (match it with
     | .bracket false _ bracketAfter pos => .bracket false false bracketAfter pos
     | other => other) :: deactivate rest

/-- Record on the nearest opener that another bracket follows it. -/
def markBracketAfter : List Item → List Item
  | [] => []
  | it :: rest =>
    match it with
    | .bracket image active _ pos => .bracket image active true pos :: rest
    | other => other :: markBracketAfter rest

/-- Modelled from the spec: inline-link syntax `(dest "title")` after a closing
bracket (section 4.3, (b)): destination, title and the number of bytes used. -/
def inlineLinkTail (s : List Byte) : Option (List Byte × List Byte × Nat) :=
  if startsWith [40] s = false then none
  else
    let w1 := spanLen isWhitespace (s.drop 1)
    match scanLinkDest (s.drop (1 + w1)) with
    | none => none
    | some (dn, dest) =>
      let n2 := 1 + w1 + dn
      let w2 := spanLen isWhitespace (s.drop n2)
      let title : Nat × List Byte :=
        if w2 = 0 then (0, [])
        else
          match scanLinkTitle (s.drop (n2 + w2)) with
          | some t => t
          | none => (0, [])
      let n3 := n2 + w2 + title.1
      let w3 := spanLen isWhitespace (s.drop n3)
      if startsWith [41] (s.drop (n3 + w3)) then some (dest, title.2, n3 + w3 + 1) else none

/-- Modelled from the spec: reference syntax after a closing bracket (sections
4.3 (b) and 4.4): an explicit `[label]` first, else the enclosed text itself
(collapsed `[]` or shortcut), looked up in the Link-Reference Table. `between`
is the source text between the brackets. The result is destination, title and
the number of bytes used after the `]`. -/
def referenceTail (refs : List RefDef) (between : List Byte) (bracketAfter : Bool)
    (s : List Byte) : Option (List Byte × List Byte × Nat) :=
  let found := scanLinkLabel s
  let explicit : Bool :=
    match found with
    | some l => !l.isEmpty
    | none => false
  let label : List Byte :=
    match found with
    | some l => if explicit then l else if bracketAfter then [] else between
    | none => if bracketAfter then [] else between
  let used : Nat :=
    match found with
    | some l => l.length + 2
    | none => 0
  match lookupRef refs label with
  | some r => some (r.dest, r.title.getD [], used)
  | none => none

/-- Modelled from the spec: a closing bracket (section 4.3, (b)). With an active
opener it attempts inline-link syntax, else reference syntax; on success the
entries after the opener have their emphasis resolved and become the children
of the link or image, and for a link the earlier `[` openers are deactivated.
Otherwise the opener is dropped from the stack and both brackets are literal
text. `prevRev` holds the source before the `]` in reverse, `rest` the source
after it. The result is the new stack and the number of bytes consumed. -/
def closeBracket (refs : List RefDef) (items : List Item) (prevRev : List Byte)
    (rest : List Byte) : List Item × Nat :=
  match findBracket items with
  | none => (.node (textNode [93]) :: items, 1)
  | some m =>
    let literal : List Item × Nat :=
      (.node (textNode [93]) :: m.inner ++
        .node (textNode (if m.image then [33, 91] else [91])) :: m.outer, 1)
    if m.active = false then literal
    else
      let between := (prevRev.take (prevRev.length - m.pos)).reverse
      let target : Option ((List Byte × List Byte × Nat) × Bool) :=
        match inlineLinkTail rest with
        | some t => some (t, false)
        | none => (referenceTail refs between m.bracketAfter rest).map (fun t => (t, true))
      match target with
      | none => literal
      | some (t, fromRef) =>
        let kids := procEmph m.inner.reverse
        if m.image then (.node (.mk (.image t.1 t.2.1 fromRef) kids) :: m.outer, 1 + t.2.2)
        else (.node (.mk (.link t.1 t.2.1 fromRef) kids) :: deactivate m.outer, 1 + t.2.2)

/-- Modelled from the spec: one step of the left-to-right scan (section 4.3):
the construct that starts at byte `c` (followed by `rest`, preceded by the
reversed source `prevRev`) is recognised, the stack is extended, and the number
of bytes consumed is returned. -/
def inlineStep (smart : Bool) (refs : List RefDef) (items : List Item) (prevRev : List Byte)
    (c : Byte) (rest : List Byte) : List Item × Nat :=
  if c = 10 then
    (.node (.mk (.lineBreak (startsWith [32, 32] prevRev)) []) :: items,
      1 + spanLen isSpaceOrTab rest)
  else if c = 96 then
    let n := 1 + spanLen (fun d => d == 96) rest
    match findTicks n (rest.drop (n - 1)) 0 0 with
    | some k => (.node (.mk (.code (codeContent ((rest.drop (n - 1)).take k))) []) :: items,
        n + k + n)
    | none => (.node (textNode (List.replicate n 96)) :: items, n)
  else if c = 92 then
    match rest with
    | [] => (.node (textNode [92]) :: items, 1)
    | d :: after =>
      if isAsciiPunct d then (.node (textNode [d]) :: items, 2)
      else if d = 10 then
        (.node (.mk (.lineBreak true) []) :: items, 2 + spanLen isSpaceOrTab after)
      else (.node (textNode [92]) :: items, 1)
  else if c = 38 then
    match parseEntity rest with
    | some (bs, n) => (.node (textNode bs) :: items, n + 1)
    | none => (.node (textNode [38]) :: items, 1)
  else if c = 60 then
    match scanAutolinkUri rest with
    | some n =>
      (.node (.mk (.link (rest.take n) [] false) [textNode (rest.take n)]) :: items, n + 2)
    | none =>
      match scanAutolinkEmail rest with
      | some n =>
        (.node (.mk (.link (bytesOf "mailto:" ++ rest.take n) [] false) [textNode (rest.take n)])
          :: items, n + 2)
      | none =>
        match scanHtmlTag (c :: rest) with
        | some n => (.node (.mk (.rawHtml ((c :: rest).take n)) []) :: items, n)
        | none => (.node (textNode [60]) :: items, 1)
  else if c = 42 ∨ c = 95 then
    let n := 1 + spanLen (fun d => d == c) rest
    let flags := delimFlags c (decodeLast prevRev) (decodeFirst (rest.drop (n - 1)))
    (.delim c n n flags.1 flags.2 :: items, n)
  else if (c = 39 ∨ c = 34) ∧ smart = true then
    let flags := delimFlags c (decodeLast prevRev) (decodeFirst rest)
    (.delim c 1 1 flags.1 flags.2 :: items, 1)
  else if c = 45 ∧ smart = true then
    let n := 1 + spanLen (fun d => d == 45) rest
    (.node (textNode (if n = 1 then [45] else smartDashes n)) :: items, n)
  else if c = 46 ∧ smart = true then
    if startsWith [46, 46] rest then (.node (textNode (utf8Encode 0x2026)) :: items, 3)
    else (.node (textNode [46]) :: items, 1)
  else if c = 91 then
    (.bracket false true false (prevRev.length + 1) :: markBracketAfter items, 1)
  else if c = 33 then
    if startsWith [91] rest then
      (.bracket true true false (prevRev.length + 2) :: markBracketAfter items, 2)
    else (.node (textNode [33]) :: items, 1)
  else if c = 93 then closeBracket refs items prevRev rest
  else
    let n := 1 + spanLen (fun d => !isSpecial smart d) rest
    let run := (c :: rest).take n
    (.node (textNode (if startsWith [10] (rest.drop (n - 1)) then rtrimBy isWhitespace run else run))
      :: items, n)

/-- The left-to-right scan; `skip` counts bytes that the previous step consumed
beyond its first byte. -/
def scanInlines (smart : Bool) (refs : List RefDef) :
    List Byte → Nat → List Item → List Byte → List Item
  | [], _, items, _ => items
  | c :: rest, skip + 1, items, prevRev => scanInlines smart refs rest skip items (c :: prevRev)
  | c :: rest, 0, items, prevRev =>
    scanInlines smart refs rest ((inlineStep smart refs items prevRev c rest).2 - 1)
      (inlineStep smart refs items prevRev c rest).1 (c :: prevRev)

/-- Prepend a node to a normalized sequence: adjacent text nodes are merged and
empty text nodes dropped. -/
def consText (n : Node) (ns : List Node) : List Node :=
  match n with
  | .mk (.text a) _ =>
    if a.isEmpty then ns
    else
      match ns with
      | .mk (.text b) _ :: rest => .mk (.text (a ++ b)) [] :: rest
      | _ => n :: ns
  | _ => n :: ns

mutual
/-- Merge adjacent text nodes throughout a tree. -/
def Node.mergeText : Node → Node
  | .mk k cs => .mk k (Node.mergeTextList cs)
/-- Merge adjacent text nodes throughout a forest. -/
def Node.mergeTextList : List Node → List Node
  | [] => []
  | c :: cs => consText (Node.mergeText c) (Node.mergeTextList cs)
end

/-- Modelled from the spec: the Inline Parser on the raw text of one leaf block
(section 4.3): left-to-right scan, then delimiter resolution of what is left on
the stack, with unmatched openers turned back into text. -/
def parse_inlines (smart : Bool) (refs : List RefDef) (raw : List Byte) : List Node :=
  Node.mergeTextList (procEmph (scanInlines smart refs (rtrimBy isWhitespace raw) 0 [] []).reverse)

/-! ## The two phases put together (specification sections 2 and 6) -/

mutual
/-- Modelled from the spec: the second phase (sections 2 and 4.3): every
paragraph and heading has its raw text replaced by the inline nodes parsed from
it against the completed Link-Reference Table; list items take the tightness of
their list. `tight` is the tightness of the enclosing list. -/
def Block.toNode (smart : Bool) (refs : List RefDef) (tight : Bool) : Block → Node
  | .mk k cs content _ =>
    match k with
    | .document => .mk .document (Block.toNodes smart refs false cs)
    | .blockQuote => .mk .blockQuote (Block.toNodes smart refs false cs)
    | .list ordered start delim t => .mk (.list ordered start t delim) (Block.toNodes smart refs t cs)
    | .item _ _ _ => .mk (.listItem tight) (Block.toNodes smart refs false cs)
    | .heading level => .mk (.heading level) (parse_inlines smart refs content)
    | .paragraph => .mk .paragraph (parse_inlines smart refs content)
    | .codeBlock fenced _ _ _ =>
      if fenced then
        .mk (.codeBlock true (unescape (trim (content.takeWhile (fun c => c != 10))))
          ((content.dropWhile (fun c => c != 10)).drop 1)) []
      else .mk (.codeBlock false [] content) []
    | .htmlBlock _ => .mk (.htmlBlock content) []
    | .thematicBreak => .mk .thematicBreak []
/-- The second phase on a sequence of blocks. -/
def Block.toNodes (smart : Bool) (refs : List RefDef) (tight : Bool) : List Block → List Node
  | [] => []
  | b :: bs => Block.toNode smart refs tight b :: Block.toNodes smart refs tight bs
end

/-- Modelled from the spec: the logical lines that `parse` hands to the Block
Parser: the input, validated when `validate_utf8` is set, split by the Line
Scanner (sections 2, 4.1 and 6). -/
def inputLines (text : List Byte) (options : Options) : List Line :=
  scanLines (if options.validate_utf8 then validateUtf8 text else text)

/-- Modelled from the spec: `parse` (section 6). The input is optionally
validated, split into lines, block-parsed to completion, and only then
inline-parsed against the completed Link-Reference Table (section 9). -/
def parse (text : List Byte) (options : Options) : Node :=
  let r := parseBlocks (inputLines text options)
  Block.toNode options.smart_punctuation r.2 false r.1

/-! ## HTML renderer (specification section 4.5) -/

/-- Escaping of text content: `&`, `<` and `>`. -/
def escapeText : List Byte → List Byte
  | [] => []
  | c :: rest =>
    (if c = 38 then bytesOf "&amp;"
     else if c = 60 then bytesOf "&lt;"
     else if c = 62 then bytesOf "&gt;"
     else [c]) ++ escapeText rest

/-- Escaping inside attribute values: `&`, `<`, `>` and also `"`. -/
def escapeAttr : List Byte → List Byte
  | [] => []
  | c :: rest =>
    (if c = 38 then bytesOf "&amp;"
     else if c = 60 then bytesOf "&lt;"
     else if c = 62 then bytesOf "&gt;"
     else if c = 34 then bytesOf "&quot;"
     else [c]) ++ escapeAttr rest

/-- The placeholder comment that stands for raw HTML when `unsafe_raw_html` is off. -/
def rawHtmlPlaceholder : List Byte := bytesOf "<!-- raw HTML omitted -->"

/-- Start a new line unless the output is empty or already at the start of one. -/
def cr (out : List Byte) : List Byte :=
  match out.getLast? with
  | none => out
  | some c => if c = 10 then out else out ++ [10]

/-- Decimal digits of a number as bytes. -/
def decimalBytes (n : Nat) : List Byte := (decimal n).data.map Char.toNat

mutual
/-- Plain text of an inline subtree, for the `alt` attribute of an image. -/
def plainText : Node → List Byte
  | .mk k cs =>
    match k with
    | .text lit => lit
    | .code lit => lit
    | .rawHtml lit => lit
    | .lineBreak _ => [32]
    | _ => plainTextList cs
/-- Plain text of a sequence of inline nodes. -/
def plainTextList : List Node → List Byte
  | [] => []
  | c :: cs => plainText c ++ plainTextList cs
end

mutual
/-- Modelled from the spec: depth-first rendering of one node onto the output
written so far (section 4.5). `tight` tells whether the node is the direct
child of an item of a tight list, where paragraphs are not wrapped in `<p>`. -/
def renderNode (unsafeHtml : Bool) (tight : Bool) : Node → List Byte → List Byte
  | .mk k cs, out =>
    match k with
    | .document => renderNodes unsafeHtml false cs out
    | .blockQuote =>
      cr (renderNodes unsafeHtml false cs (cr out ++ bytesOf "<blockquote>\n"))
        ++ bytesOf "</blockquote>\n"
    | .list ordered start _ _ =>
      renderNodes unsafeHtml false cs
          (cr out ++
            (if ordered then
              (if start = 1 then bytesOf "<ol>\n"
               else bytesOf "<ol start=\"" ++ decimalBytes start ++ bytesOf "\">\n")
             else bytesOf "<ul>\n"))
        ++ (if ordered then bytesOf "</ol>\n" else bytesOf "</ul>\n")
    | .listItem t => renderNodes unsafeHtml t cs (cr out ++ bytesOf "<li>") ++ bytesOf "</li>\n"
    | .heading level =>
      renderNodes unsafeHtml false cs (cr out ++ bytesOf "<h" ++ decimalBytes level ++ bytesOf ">")
        ++ bytesOf "</h" ++ decimalBytes level ++ bytesOf ">\n"
    | .paragraph =>
      if tight then renderNodes unsafeHtml false cs out
      else renderNodes unsafeHtml false cs (cr out ++ bytesOf "<p>") ++ bytesOf "</p>\n"
    | .codeBlock _ info literal =>
      cr out ++
        (if info.isEmpty then bytesOf "<pre><code>"
         else bytesOf "<pre><code class=\"language-" ++
           escapeAttr (info.takeWhile (fun c => !isWhitespace c)) ++ bytesOf "\">")
        ++ escapeText literal ++ bytesOf "</code></pre>\n"
    | .htmlBlock literal => cr (cr out ++ (if unsafeHtml then literal else rawHtmlPlaceholder))
    | .thematicBreak => cr out ++ bytesOf "<hr />\n"
    | .text literal => out ++ escapeText literal
    | .emphasis => renderNodes unsafeHtml false cs (out ++ bytesOf "<em>") ++ bytesOf "</em>"
    | .strong =>
      renderNodes unsafeHtml false cs (out ++ bytesOf "<strong>") ++ bytesOf "</strong>"
    | .link dest title _ =>
      renderNodes unsafeHtml false cs
          (out ++ bytesOf "<a href=\"" ++ escapeAttr dest ++ bytesOf "\"" ++
            (if title.isEmpty then [] else bytesOf " title=\"" ++ escapeAttr title ++ bytesOf "\"")
            ++ bytesOf ">")
        ++ bytesOf "</a>"
    | .image dest title _ =>
      out ++ bytesOf "<img src=\"" ++ escapeAttr dest ++ bytesOf "\" alt=\"" ++
        escapeAttr (plainTextList cs) ++ bytesOf "\"" ++
        (if title.isEmpty then [] else bytesOf " title=\"" ++ escapeAttr title ++ bytesOf "\"")
        ++ bytesOf " />"
    | .code literal => out ++ bytesOf "<code>" ++ escapeText literal ++ bytesOf "</code>"
    | .lineBreak hard => out ++ (if hard then bytesOf "<br />\n" else [10])
    | .rawHtml literal => out ++ (if unsafeHtml then literal else rawHtmlPlaceholder)
/-- Rendering of a sequence of sibling nodes, in order. -/
def renderNodes (unsafeHtml : Bool) (tight : Bool) : List Node → List Byte → List Byte
  | [], out => out
  | c :: cs, out => renderNodes unsafeHtml tight cs (renderNode unsafeHtml tight c out)
end

/-- Modelled from the spec: `render_html` (section 6): the HTML of a tree; only
the `unsafe_raw_html` flag of the options is consulted. -/
def render_html (tree : Node) (options : Options) : List Byte :=
  renderNode options.unsafe_raw_html false tree []

/-! ## Measures used in the statements -/

/-- Whether a node is an emphasis node. -/
def Node.isEmphasis : Node → Bool
  | .mk .emphasis _ => true
  | _ => false

/-- Whether a node is a strong-emphasis node. -/
def Node.isStrong : Node → Bool
  | .mk .strong _ => true
  | _ => false

/-- Number of nodes of a tree that satisfy `p`. -/
def Node.count (p : Node → Bool) (t : Node) : Nat := (t.nodes.filter p).length

/-- Whether the bottom entry of the Open-Block Stack is the document. -/
def rootIsDocument : List OpenBlock → Bool
  | [] => false
  | r :: rest =>
    match rest with
    | [] => r.kind == .document
    | _ :: _ => rootIsDocument rest

mutual
/-- No block of the subtree is marked as followed by a blank line and every
list in it is tight. -/
def Block.clean : Block → Bool
  | .mk k cs _ blank =>
    !blank &&
    (match k with
     | .list _ _ _ tight => tight
     | _ => true) && Block.cleanList cs
/-- The same for a sequence of blocks. -/
def Block.cleanList : List Block → Bool
  | [] => true
  | b :: bs => Block.clean b && Block.cleanList bs
end

/-- An open block is not marked as followed by a blank line, and neither is any
of its closed descendants, whose lists are all tight. -/
def OpenBlock.clean (ob : OpenBlock) : Bool := !ob.lastLineBlank && Block.cleanList ob.children

/-- Every entry of the Open-Block Stack is clean. -/
def stackClean (s : List OpenBlock) : Bool := s.all OpenBlock.clean

/-- The deepest open block has no child yet and a blank rest of line does not
count for it. -/
def tipFresh (st : ParserState) : Bool :=
  match st.stack with
  | [] => false
  | tip :: _ => tip.children.isEmpty && !blankCounts tip false st.lineNumber

/-- A line has content: some byte other than a space, a tab or the block quote
marker `>`. A line without content is blank, possibly behind block quote markers. -/
def hasContent (line : List Byte) : Bool := line.any (fun c => !(c == 32 || c == 9 || c == 62))

/-- The state carried by the outcome of looking for new block starts. -/
def OpenResult.state : OpenResult → ParserState
  | .done st => st
  | .text st _ _ => st

/-- The outcome of looking for new block starts keeps the stack clean, and a
blank rest of line is left only in front of a fresh deepest block. -/
def OpenResult.good : OpenResult → Bool
  | .done st => stackClean st.stack
  | .text st um cur => stackClean st.stack && (!cur.blank || (um == 0 && tipFresh st))

/-- A stack entry satisfies `P` when it is a finished node that does; delimiter
runs and bracket openers are not nodes yet. -/
def Item.sat (P : Node → Bool) : Item → Bool
  | .node n => P n
  | _ => true

/-- A property of nodes that holds of every text node and is inherited by an
emphasis or strong node from its children. -/
structure InlineClosed (P : Node → Bool) : Prop where
  text : ∀ bs, P (textNode bs) = true
  emphasis : ∀ kids : List Node, (∀ n ∈ kids, P n = true) → P (.mk .emphasis kids) = true
  strong : ∀ kids : List Node, (∀ n ∈ kids, P n = true) → P (.mk .strong kids) = true

/-- No active link opener `[` is on the stack (image openers do not count). -/
def noActiveOpener : List Item → Bool
  | [] => true
  | it :: rest =>
    (match it with
     | .bracket false true _ _ => false
     | _ => true) && noActiveOpener rest

/-- Invariant of the inline scan for two node properties `P` and `Q`: every
finished node on the stack satisfies `P`, and it satisfies `Q` unless no active
link opener lies before it. The stack is given nearest entry first. -/
def scanInv (P Q : Node → Bool) : List Item → Bool
  | [] => true
  | it :: rest =>
    (match it with
     | .node n => P n && (Q n || noActiveOpener rest)
     | _ => true) && scanInv P Q rest

/-- Closure conditions on two node properties under which `scanInv` is kept by
the inline scan: both hold of the leaf inline nodes and are inherited through
emphasis; a link inherits `P` from children that satisfy both; an image
inherits each property from its children. -/
structure ScanClosed (P Q : Node → Bool) : Prop where
  inlP : InlineClosed P
  inlQ : InlineClosed Q
  codeP : ∀ l, P (.mk (.code l) []) = true
  codeQ : ∀ l, Q (.mk (.code l) []) = true
  breakP : ∀ h, P (.mk (.lineBreak h) []) = true
  breakQ : ∀ h, Q (.mk (.lineBreak h) []) = true
  htmlP : ∀ l, P (.mk (.rawHtml l) []) = true
  htmlQ : ∀ l, Q (.mk (.rawHtml l) []) = true
  linkP : ∀ d t f (kids : List Node), (∀ n ∈ kids, P n = true ∧ Q n = true) →
    P (.mk (.link d t f) kids) = true
  imageP : ∀ d t f (kids : List Node), (∀ n ∈ kids, P n = true) →
    P (.mk (.image d t f) kids) = true
  imageQ : ∀ d t f (kids : List Node), (∀ n ∈ kids, Q n = true) →
    Q (.mk (.image d t f) kids) = true

/-- The options with both `smart_punctuation` and `validate_utf8` off. -/
def safeOptions : Options := ⟨false, false, false⟩

/-! ## Theorems -/

mutual
/-- Structural equality is reflexive. -/
theorem Node.structEq_refl : ∀ t : Node, Node.structEq t t = true
  | .mk k cs => by
    have h := Node.structEqList_refl cs
    simp [Node.structEq, h]
/-- Structural equality of child sequences is reflexive. -/
theorem Node.structEqList_refl : ∀ l : List Node, Node.structEqList l l = true
  | [] => by simp [Node.structEqList]
  | c :: cs => by
    have h1 := Node.structEq_refl c
    have h2 := Node.structEqList_refl cs
    simp [Node.structEqList, h1, h2]
end

/-- C8: the packed integer `CMARK_VERSION` is 5632 = 0x001600, its three byte
fields are 0, 22 and 0, each component fits in 8 bits so that the packed value is
the sum of the shifted components, and the fields joined in decimal with `.` give
exactly `CMARK_VERSION_STRING`, which is "0.22.0". -/
theorem cmark_version_agrees_with_string :
    CMARK_VERSION = 5632 ∧ CMARK_VERSION = 0x001600 ∧
    versionMajor CMARK_VERSION = 0 ∧ versionMinor CMARK_VERSION = 22 ∧
    versionPatch CMARK_VERSION = 0 ∧
    (versionMajor CMARK_VERSION < 256 ∧ versionMinor CMARK_VERSION < 256 ∧
      versionPatch CMARK_VERSION < 256) ∧
    CMARK_VERSION = versionMajor CMARK_VERSION * 65536 + versionMinor CMARK_VERSION * 256
      + versionPatch CMARK_VERSION ∧
    versionString CMARK_VERSION = CMARK_VERSION_STRING ∧
    CMARK_VERSION_STRING = "0.22.0" := by
  refine ⟨by decide, by decide, by decide, by decide, by decide, by decide, by decide,
    by decide, by decide⟩

theorem rootIsDocument_cons_cons (a b : OpenBlock) (rest : List OpenBlock) :
    rootIsDocument (a :: b :: rest) = rootIsDocument (b :: rest) := by
  simp [rootIsDocument]

theorem rootIsDocument_cons_of_ne (a : OpenBlock) (s : List OpenBlock) (h : s ≠ []) :
    rootIsDocument (a :: s) = rootIsDocument s := by
  cases s with
  | nil => exact absurd rfl h
  | cons b rest => exact rootIsDocument_cons_cons a b rest

theorem rootIsDocument_ne_nil {s : List OpenBlock} (h : rootIsDocument s = true) : s ≠ [] := by
  intro hs; subst hs; simp [rootIsDocument] at h

theorem rootIsDocument_head_congr (a b : OpenBlock) (rest : List OpenBlock)
    (hk : a.kind = b.kind) : rootIsDocument (a :: rest) = rootIsDocument (b :: rest) := by
  cases rest with
  | nil => simp [rootIsDocument, hk]
  | cons c r => simp [rootIsDocument]

theorem closeTip_root (st : ParserState) (h : rootIsDocument st.stack = true) :
    rootIsDocument (closeTip st).stack = true := by
  unfold closeTip
  split
  · rename_i tip parent rest heq
    rw [heq, rootIsDocument_cons_cons] at h
    simp only
    rw [← h]
    exact rootIsDocument_head_congr _ _ _ rfl
  · exact h

theorem closeN_root (n : Nat) (st : ParserState) (h : rootIsDocument st.stack = true) :
    rootIsDocument (closeN n st).stack = true := by
  induction n generalizing st with
  | zero => exact h
  | succ n ih => exact ih _ (closeTip_root st h)

theorem closeUntilContains_root (k : BlockKind) (n : Nat) (st : ParserState)
    (h : rootIsDocument st.stack = true) :
    rootIsDocument (closeUntilContains k n st).stack = true := by
  induction n generalizing st with
  | zero => exact h
  | succ n ih =>
    unfold closeUntilContains
    split
    · exact h
    · exact ih _ (closeTip_root st h)

theorem pushOpen_root (st : ParserState) (k : BlockKind) (h : rootIsDocument st.stack = true) :
    rootIsDocument (pushOpen st k).stack = true := by
  unfold pushOpen
  have h1 := closeUntilContains_root k st.stack.length st h
  simp only
  rw [rootIsDocument_cons_of_ne _ _ (rootIsDocument_ne_nil h1)]
  exact h1

theorem addLeaf_root (st : ParserState) (k : BlockKind) (c : List Byte)
    (h : rootIsDocument st.stack = true) : rootIsDocument (addLeaf st k c).stack = true := by
  unfold addLeaf
  have h1 := closeUntilContains_root k st.stack.length st h
  simp only
  split
  · exact h1
  · rename_i tip rest heq
    rw [heq] at h1
    simp only
    rw [← h1]
    exact rootIsDocument_head_congr _ _ _ rfl

theorem appendLine_root (st : ParserState) (l : List Byte)
    (h : rootIsDocument st.stack = true) : rootIsDocument (appendLine st l).stack = true := by
  unfold appendLine
  split
  · exact h
  · rename_i tip rest heq
    rw [heq] at h
    simp only
    rw [← h]
    exact rootIsDocument_head_congr _ _ _ rfl

theorem rootIsDocument_of_kinds : ∀ (s t : List OpenBlock),
    s.map (·.kind) = t.map (·.kind) → rootIsDocument s = rootIsDocument t
  | [], [], _ => rfl
  | [], _ :: _, h => by simp at h
  | _ :: _, [], h => by simp at h
  | a :: s, b :: t, h => by
    simp only [List.map_cons, List.cons.injEq] at h
    have ih := rootIsDocument_of_kinds s t h.2
    cases s with
    | nil =>
      cases t with
      | nil => simp [rootIsDocument, h.1]
      | cons _ _ => simp at h
    | cons c s =>
      cases t with
      | nil => simp at h
      | cons d t => rw [rootIsDocument_cons_cons, rootIsDocument_cons_cons]; exact ih

theorem flagLastOpen_kinds (l : List OpenBlock) :
    (flagLastOpen l).map (·.kind) = l.map (·.kind) := by
  unfold flagLastOpen
  split
  · rfl
  · rename_i child above hrev
    have : l = (child :: above).reverse := by rw [← hrev, List.reverse_reverse]
    rw [this]
    simp

theorem setBlankFlags_kinds (st : ParserState) (um : Nat) (blank : Bool) :
    (setBlankFlags st um blank).stack.map (·.kind) = st.stack.map (·.kind) := by
  unfold setBlankFlags
  split
  · rfl
  · rename_i c ancestors heq
    have hsplit : st.stack = st.stack.take um ++ c :: ancestors := by
      rw [← heq, List.take_append_drop]
    conv_rhs => rw [hsplit]
    cases blank <;> simp [flagLastOpen_kinds, Function.comp_def]

theorem setBlankFlags_root (st : ParserState) (um : Nat) (blank : Bool)
    (h : rootIsDocument st.stack = true) :
    rootIsDocument (setBlankFlags st um blank).stack = true := by
  rw [rootIsDocument_of_kinds _ _ (setBlankFlags_kinds st um blank)]; exact h

theorem setextHeading_root (st : ParserState) (lvl : Nat) (cur : Cursor)
    (h : rootIsDocument st.stack = true) :
    rootIsDocument (setextHeading st lvl cur).state.stack = true := by
  unfold setextHeading
  split
  · rename_i tip parent rest heq
    rw [heq] at h
    dsimp only
    split
    · simp only [OpenResult.state]
      rw [← h]; exact rootIsDocument_head_congr _ _ _ rfl
    · simp only [OpenResult.state]
      rw [rootIsDocument_cons_cons] at h
      rw [← h]; exact rootIsDocument_head_congr _ _ _ rfl
  · exact h

theorem openListItem_root (st : ParserState) (m : ListMarker) (cur : Cursor)
    (h : rootIsDocument st.stack = true) :
    rootIsDocument (openListItem st m cur).1.stack = true := by
  unfold openListItem
  simp only
  apply pushOpen_root
  split
  · exact h
  · exact pushOpen_root _ _ h

theorem openNewBlocks_root (fuel : Nat) (st : ParserState) (um : Nat) (cur : Cursor)
    (h : rootIsDocument st.stack = true) :
    rootIsDocument (openNewBlocks fuel st um cur).state.stack = true := by
  induction fuel generalizing st um cur with
  | zero => exact h
  | succ n ih =>
    unfold openNewBlocks
    simp only
    split
    · exact h
    · exact h
    · split
      · exact addLeaf_root _ _ _ (closeN_root _ _ h)
      · split
        · exact addLeaf_root _ _ _ (closeN_root _ _ h)
        · split
          · exact pushOpen_root _ _ (closeN_root _ _ h)
          · split
            · exact pushOpen_root _ _ (closeN_root _ _ h)
            · split
              · exact ih _ _ _ (pushOpen_root _ _ (closeN_root _ _ h))
              · split
                · exact ih _ _ _ (openListItem_root _ _ _ (closeN_root _ _ h))
                · split
                  · exact pushOpen_root _ _ (closeN_root _ _ h)
                  · split
                    · exact setextHeading_root _ _ _ h
                    · exact h

theorem addText_root (st : ParserState) (um : Nat) (cur : Cursor)
    (h : rootIsDocument st.stack = true) :
    rootIsDocument (addText st um cur).stack = true := by
  unfold addText
  have h1 := setBlankFlags_root st um cur.blank h
  simp only
  split
  · exact appendLine_root _ _ h1
  · have h2 := closeN_root um _ h1
    split
    · exact appendLine_root _ _ h2
    · split
      · exact closeTip_root _ (appendLine_root _ _ h2)
      · exact appendLine_root _ _ h2
    · split
      · exact h2
      · exact appendLine_root _ _ h2
    · split
      · exact h2
      · exact appendLine_root _ _ (pushOpen_root _ _ h2)

theorem processLine_root (st : ParserState) (text : List Byte)
    (h : rootIsDocument st.stack = true) :
    rootIsDocument (processLine st text).stack = true := by
  unfold processLine
  simp only
  split
  · exact closeTip_root _ h
  · have h2 := openNewBlocks_root (text.length + 1) { st with lineNumber := st.lineNumber + 1 }
      (st.stack.length - (checkOpenBlocks (st.stack.reverse.drop 1) ⟨0, text⟩ 1).1)
      (checkOpenBlocks (st.stack.reverse.drop 1) ⟨0, text⟩ 1).2.1 h
    split
    · rename_i st2 heq
      rw [heq] at h2; exact h2
    · rename_i st2 um cur heq
      rw [heq] at h2
      exact addText_root _ _ _ h2

theorem foldl_processLine_root (lines : List Line) (st : ParserState)
    (h : rootIsDocument st.stack = true) :
    rootIsDocument (lines.foldl (fun st l => processLine st l.text) st).stack = true := by
  induction lines generalizing st with
  | nil => exact h
  | cons l ls ih => exact ih _ (processLine_root st l.text h)

theorem closeTip_length (st : ParserState) :
    (closeTip st).stack.length = if 2 ≤ st.stack.length then st.stack.length - 1
      else st.stack.length := by
  unfold closeTip
  split
  · rename_i tip parent rest heq
    simp [heq]
  · rename_i hne
    have : ¬ 2 ≤ st.stack.length := by
      intro h2
      match hs : st.stack with
      | [] => simp [hs] at h2
      | [_] => simp [hs] at h2
      | a :: b :: r => exact hne a b r hs
    simp [this]

theorem closeN_length_one (n : Nat) (st : ParserState) (hne : st.stack ≠ [])
    (hlen : st.stack.length ≤ n + 1) : (closeN n st).stack.length = 1 := by
  induction n generalizing st with
  | zero =>
    have : 0 < st.stack.length := List.length_pos.mpr hne
    simp only [closeN]; omega
  | succ n ih =>
    simp only [closeN]
    have hl := closeTip_length st
    have hpos : 0 < st.stack.length := List.length_pos.mpr hne
    apply ih
    · intro hnil
      rw [hnil] at hl
      simp only [List.length_nil] at hl
      split at hl <;> omega
    · split at hl <;> omega

theorem parseBlocks_root_kind (lines : List Line) : (parseBlocks lines).1.kind = .document := by
  unfold parseBlocks
  dsimp only
  have hfold := foldl_processLine_root lines initialState (by decide)
  generalize lines.foldl (fun st l => processLine st l.text) initialState = st at hfold
  have hroot := closeN_root st.stack.length st hfold
  have hlen := closeN_length_one st.stack.length st (rootIsDocument_ne_nil hfold) (by omega)
  split
  · rfl
  · rename_i root rest heq
    rw [heq] at hroot hlen
    cases rest with
    | nil =>
      simp only [rootIsDocument, beq_iff_eq] at hroot
      simp [Block.kind, hroot]
    | cons a b => simp at hlen

theorem toNode_document (smart : Bool) (refs : List RefDef) (tight : Bool) (b : Block)
    (h : b.kind = .document) :
    ∃ cs, Block.toNode smart refs tight b = Node.mk .document cs := by
  cases b with
  | mk k cs c bl =>
    simp only [Block.kind] at h
    subst h
    exact ⟨Block.toNodes smart refs false cs, by simp [Block.toNode]⟩

/-- C2: `parse` is a total function without an error result: for every byte
sequence and every options value it returns a document tree whose root is a
Document node. -/
theorem parse_total (text : List Byte) (options : Options) :
    ∃ cs, parse text options = Node.mk .document cs := by
  unfold parse
  exact toNode_document _ _ _ _ (parseBlocks_root_kind _)

theorem cleanList_append (a b : List Block) :
    Block.cleanList (a ++ b) = (Block.cleanList a && Block.cleanList b) := by
  induction a with
  | nil => simp [Block.cleanList]
  | cons x xs ih => simp [Block.cleanList, ih, Bool.and_assoc]

theorem cleanList_reverse (a : List Block) :
    Block.cleanList a.reverse = Block.cleanList a := by
  induction a with
  | nil => rfl
  | cons x xs ih =>
    simp [cleanList_append, Block.cleanList, ih, Bool.and_comm]

mutual
theorem endsWithBlankLine_of_clean : ∀ b : Block, Block.clean b = true →
    endsWithBlankLine b = false
  | .mk k cs c blank => by
    intro h
    simp only [Block.clean, Bool.and_eq_true, Bool.not_eq_true'] at h
    have ih := endsWithBlankLineLast_of_clean cs h.2
    cases k <;> simp [endsWithBlankLine, h.1.1, ih]
theorem endsWithBlankLineLast_of_clean : ∀ cs : List Block, Block.cleanList cs = true →
    endsWithBlankLineLast cs = false
  | [] => by intro _; simp [endsWithBlankLineLast]
  | b :: bs => by
    intro h
    simp only [Block.cleanList, Bool.and_eq_true] at h
    have h1 := endsWithBlankLine_of_clean b h.1
    have h2 := endsWithBlankLineLast_of_clean bs h.2
    simp [endsWithBlankLineLast, h1, h2]
end

theorem subitemsLoose_of_clean (nxt : Bool) (cs : List Block) (h : Block.cleanList cs = true) :
    subitemsLoose nxt cs = false := by
  induction cs with
  | nil => simp [subitemsLoose]
  | cons b bs ih =>
    simp only [Block.cleanList, Bool.and_eq_true] at h
    simp [subitemsLoose, endsWithBlankLine_of_clean b h.1, ih h.2]

theorem clean_flag {k : BlockKind} {cs : List Block} {c : List Byte} {blank : Bool}
    (h : Block.clean (.mk k cs c blank) = true) : blank = false ∧ Block.cleanList cs = true := by
  simp only [Block.clean, Bool.and_eq_true, Bool.not_eq_true'] at h
  exact ⟨h.1.1, h.2⟩

theorem listLoose_of_clean (cs : List Block) (h : Block.cleanList cs = true) :
    listLoose cs = false := by
  induction cs with
  | nil => simp [listLoose]
  | cons b bs ih =>
    simp only [Block.cleanList, Bool.and_eq_true] at h
    cases b with
    | mk k subs c blank =>
      have hb := clean_flag h.1
      simp [listLoose, Block.lastLineBlank, hb.1, subitemsLoose_of_clean _ subs hb.2, ih h.2]

theorem finalizeBlock_clean (refs : List RefDef) (ob : OpenBlock) (h : ob.clean = true)
    (b : Block) (hb : (finalizeBlock refs ob).1 = some b) : Block.clean b = true := by
  simp only [OpenBlock.clean, Bool.and_eq_true, Bool.not_eq_true'] at h
  unfold finalizeBlock at hb
  split at hb
  · dsimp only at hb
    split at hb
    · simp at hb
    · simp only [Option.some.injEq] at hb
      subst hb
      simp [Block.clean, Block.cleanList, h.1]
  · simp only [Option.some.injEq] at hb
    subst hb
    simp [Block.clean, h.1, cleanList_reverse, h.2, listLoose_of_clean]
  · simp only [Option.some.injEq] at hb
    subst hb
    simp [Block.clean, Block.cleanList, h.1]
  · rename_i k hk1 hk2 hk3
    simp only [Option.some.injEq] at hb
    subst hb
    simp only [Block.clean, h.1, cleanList_reverse, h.2, Bool.not_false, Bool.true_and,
      Bool.and_true]

theorem stackClean_cons (a : OpenBlock) (s : List OpenBlock) :
    stackClean (a :: s) = (a.clean && stackClean s) := by
  simp [stackClean]

theorem closeTip_clean (st : ParserState) (h : stackClean st.stack = true) :
    stackClean (closeTip st).stack = true := by
  unfold closeTip
  split
  · rename_i tip parent rest heq
    rw [heq] at h
    simp only [stackClean_cons, Bool.and_eq_true] at h
    simp only [stackClean_cons, Bool.and_eq_true]
    refine ⟨?_, h.2.2⟩
    have hp := h.2.1
    simp only [OpenBlock.clean, Bool.and_eq_true, Bool.not_eq_true'] at hp ⊢
    refine ⟨hp.1, ?_⟩
    rw [cleanList_append, hp.2, Bool.and_true]
    cases hfin : (finalizeBlock st.refs tip).1 with
    | none => simp [Block.cleanList]
    | some b =>
      simp [Block.cleanList, finalizeBlock_clean st.refs tip h.1 b hfin]
  · exact h

theorem closeN_clean (n : Nat) (st : ParserState) (h : stackClean st.stack = true) :
    stackClean (closeN n st).stack = true := by
  induction n generalizing st with
  | zero => exact h
  | succ n ih => exact ih _ (closeTip_clean st h)

theorem closeUntilContains_clean (k : BlockKind) (n : Nat) (st : ParserState)
    (h : stackClean st.stack = true) :
    stackClean (closeUntilContains k n st).stack = true := by
  induction n generalizing st with
  | zero => exact h
  | succ n ih =>
    unfold closeUntilContains
    split
    · exact h
    · exact ih _ (closeTip_clean st h)

theorem pushOpen_clean (st : ParserState) (k : BlockKind) (h : stackClean st.stack = true) :
    stackClean (pushOpen st k).stack = true := by
  unfold pushOpen
  have h1 := closeUntilContains_clean k st.stack.length st h
  simp [stackClean_cons, h1, OpenBlock.clean, Block.cleanList]

theorem addLeaf_clean (st : ParserState) (k : BlockKind) (c : List Byte)
    (hk : ∀ o s d, k ≠ .list o s d false) (h : stackClean st.stack = true) :
    stackClean (addLeaf st k c).stack = true := by
  unfold addLeaf
  have h1 := closeUntilContains_clean k st.stack.length st h
  dsimp only
  split
  · exact h1
  · rename_i tip rest heq
    rw [heq] at h1
    simp only [stackClean_cons, Bool.and_eq_true] at h1 ⊢
    refine ⟨?_, h1.2⟩
    have ht := h1.1
    simp only [OpenBlock.clean, Bool.and_eq_true, Bool.not_eq_true'] at ht ⊢
    refine ⟨ht.1, ?_⟩
    simp only [Block.cleanList, Block.clean, Bool.not_false, Bool.true_and, ht.2, Bool.and_true]
    split
    · rename_i o s d t
      cases t with
      | true => rfl
      | false => exact absurd rfl (hk o s d)
    · rfl

theorem appendLine_clean (st : ParserState) (l : List Byte) (h : stackClean st.stack = true) :
    stackClean (appendLine st l).stack = true := by
  unfold appendLine
  split
  · exact h
  · rename_i tip rest heq
    rw [heq] at h
    simp only [stackClean_cons, Bool.and_eq_true] at h ⊢
    exact ⟨by simpa [OpenBlock.clean] using h.1, h.2⟩

theorem closeTip_lineNumber (st : ParserState) : (closeTip st).lineNumber = st.lineNumber := by
  unfold closeTip; split <;> rfl

theorem closeN_lineNumber (n : Nat) (st : ParserState) :
    (closeN n st).lineNumber = st.lineNumber := by
  induction n generalizing st with
  | zero => rfl
  | succ n ih => simp only [closeN]; rw [ih, closeTip_lineNumber]

theorem closeUntilContains_lineNumber (k : BlockKind) (n : Nat) (st : ParserState) :
    (closeUntilContains k n st).lineNumber = st.lineNumber := by
  induction n generalizing st with
  | zero => rfl
  | succ n ih =>
    unfold closeUntilContains
    split
    · rfl
    · rw [ih, closeTip_lineNumber]

theorem pushOpen_lineNumber (st : ParserState) (k : BlockKind) :
    (pushOpen st k).lineNumber = st.lineNumber := by
  unfold pushOpen; exact closeUntilContains_lineNumber k _ st

theorem pushOpen_fresh (st : ParserState) (k : BlockKind)
    (hk : blankCounts ⟨k, [], [], false⟩ false st.lineNumber = false) :
    tipFresh (pushOpen st k) = true := by
  have hl := pushOpen_lineNumber st k
  unfold tipFresh
  rw [hl]
  unfold pushOpen
  simp [hk]

theorem dropIndent_replicate (k : Nat) (s : List Byte) :
    dropIndent (List.replicate k 32 ++ s) = dropIndent s := by
  induction k with
  | zero => rfl
  | succ k ih =>
    simp only [List.replicate_succ, List.cons_append]
    unfold dropIndent at ih ⊢
    rw [List.dropWhile_cons]
    simp [isSpaceOrTab, ih]

theorem dropIndent_advanceCols (rest : List Byte) (n col : Nat) :
    dropIndent (advanceCols rest n col).rest = dropIndent rest := by
  induction rest generalizing n col with
  | nil => rfl
  | cons c r ih =>
    unfold advanceCols
    split
    · rfl
    · split
      · rename_i hc
        rw [ih]; subst hc
        simp [dropIndent, isSpaceOrTab]
      · split
        · rename_i hc
          subst hc
          split
          · rw [ih]; simp [dropIndent, isSpaceOrTab]
          · simp only
            rw [dropIndent_replicate]
            simp [dropIndent, isSpaceOrTab]
        · rfl

theorem blank_advanceCols (cur : Cursor) (n : Nat) :
    (advanceCols cur.rest n cur.col).blank = cur.blank := by
  simp [Cursor.blank, dropIndent_advanceCols]

theorem hasContent_dropIndent (s : List Byte) : hasContent (dropIndent s) = hasContent s := by
  induction s with
  | nil => rfl
  | cons c r ih =>
    unfold dropIndent at ih ⊢
    rw [List.dropWhile_cons]
    split
    · rename_i hc
      rw [ih]
      simp only [isSpaceOrTab, Bool.or_eq_true, beq_iff_eq] at hc
      rcases hc with hc | hc <;> simp [hasContent, hc]
    · rfl

theorem hasContent_advanceCols (rest : List Byte) (n col : Nat) :
    hasContent (advanceCols rest n col).rest = hasContent rest := by
  rw [← hasContent_dropIndent, dropIndent_advanceCols, hasContent_dropIndent]

theorem blank_of_hasContent (cur : Cursor) (h : hasContent cur.rest = true) :
    cur.blank = false := by
  rw [← hasContent_dropIndent] at h
  unfold Cursor.blank
  cases hd : dropIndent cur.rest with
  | nil => rw [hd] at h; simp [hasContent] at h
  | cons _ _ => rfl

theorem hasContent_optionalSpace (cur : Cursor) :
    hasContent (Cursor.optionalSpace cur).rest = hasContent cur.rest := by
  unfold Cursor.optionalSpace
  split
  · split
    · exact hasContent_advanceCols _ _ _
    · rfl
  · rfl

theorem hasContent_drop_marker (s : List Byte) (h : startsWith [62] s = true) :
    hasContent (s.drop 1) = hasContent s := by
  cases s with
  | nil => rfl
  | cons c r =>
    simp only [startsWith, Bool.and_true, beq_iff_eq] at h
    simp [hasContent, ← h]

theorem continues_hasContent (ob : OpenBlock) (hc : Bool) (cur cur2 : Cursor)
    (h : hasContent cur.rest = true) (hres : continues ob hc cur = .cont cur2) :
    hasContent cur2.rest = true := by
  unfold continues at hres
  split at hres
  · split at hres
    · rename_i hcond
      simp only [MatchResult.cont.injEq] at hres
      subst hres
      rw [hasContent_optionalSpace]
      simp only
      rw [hasContent_drop_marker _ hcond.2, Cursor.body, hasContent_dropIndent]
      exact h
    · simp at hres
  · split at hres
    · simp only [MatchResult.cont.injEq] at hres
      subst hres
      rw [hasContent_advanceCols]; exact h
    · split at hres
      · simp only [MatchResult.cont.injEq] at hres
        subst hres
        simp only [Cursor.toBody, Cursor.body, hasContent_dropIndent]; exact h
      · simp at hres
  · split at hres
    · split at hres
      · simp at hres
      · simp only [MatchResult.cont.injEq] at hres
        subst hres
        rw [hasContent_advanceCols]; exact h
    · split at hres
      · simp only [MatchResult.cont.injEq] at hres
        subst hres
        rw [hasContent_advanceCols]; exact h
      · split at hres
        · simp only [MatchResult.cont.injEq] at hres
          subst hres
          simp only [Cursor.toBody, Cursor.body, hasContent_dropIndent]; exact h
        · simp at hres
  · split at hres
    · simp at hres
    · simp only [MatchResult.cont.injEq] at hres
      subst hres; exact h
  · split at hres
    · simp at hres
    · simp only [MatchResult.cont.injEq] at hres
      subst hres; exact h
  · simp at hres
  · simp at hres
  · simp only [MatchResult.cont.injEq] at hres
    subst hres; exact h
  · simp only [MatchResult.cont.injEq] at hres
    subst hres; exact h

theorem checkOpenBlocks_hasContent (obs : List OpenBlock) (cur : Cursor) (n : Nat)
    (h : hasContent cur.rest = true) :
    hasContent (checkOpenBlocks obs cur n).2.1.rest = true := by
  induction obs generalizing cur n with
  | nil => exact h
  | cons ob rest ih =>
    unfold checkOpenBlocks
    split
    · rename_i cur2 heq
      exact ih _ _ (continues_hasContent _ _ _ _ h heq)
    · exact h
    · exact h

theorem stackClean_append (a b : List OpenBlock) :
    stackClean (a ++ b) = (stackClean a && stackClean b) := by
  simp [stackClean, List.all_append]

theorem setBlankFlags_clean_nonblank (st : ParserState) (um : Nat)
    (h : stackClean st.stack = true) :
    stackClean (setBlankFlags st um false).stack = true := by
  unfold setBlankFlags
  split
  · exact h
  · rename_i c ancestors heq
    have hsplit : st.stack = st.stack.take um ++ c :: ancestors := by
      rw [← heq, List.take_append_drop]
    rw [hsplit, stackClean_append, stackClean_cons] at h
    simp only [Bool.and_eq_true] at h
    simp only [Bool.false_and, Bool.false_eq_true, if_false, stackClean_append, stackClean_cons,
      Bool.and_eq_true]
    refine ⟨h.1, ?_, ?_⟩
    · have hc := h.2.1
      simp only [OpenBlock.clean, Bool.and_eq_true, Bool.not_eq_true'] at hc ⊢
      exact ⟨trivial, hc.2⟩
    · have ha := h.2.2
      simp only [stackClean, List.all_eq_true, List.mem_map, forall_exists_index, and_imp,
        forall_apply_eq_imp_iff₂] at ha ⊢
      intro a hmem
      have := ha a hmem
      simp only [OpenBlock.clean, Bool.and_eq_true, Bool.not_eq_true'] at this ⊢
      exact ⟨trivial, this.2⟩

theorem setBlankFlags_clean_fresh (st : ParserState) (blank : Bool)
    (h : stackClean st.stack = true) (hf : tipFresh st = true) :
    stackClean (setBlankFlags st 0 blank).stack = true := by
  cases blank with
  | false => exact setBlankFlags_clean_nonblank st 0 h
  | true =>
    unfold setBlankFlags
    unfold tipFresh at hf
    simp only [List.drop_zero]
    split
    · exact h
    · rename_i c ancestors heq
      rw [heq] at h hf
      simp only [Bool.and_eq_true, Bool.not_eq_true', List.isEmpty_iff] at hf
      rw [stackClean_cons] at h
      simp only [Bool.and_eq_true] at h
      simp only [List.take_zero, if_true, flagLastOpen, List.reverse_nil, List.nil_append,
        stackClean_cons, Bool.and_eq_true, List.isEmpty_nil, Bool.and_self, Bool.not_true,
        Bool.true_and]
      refine ⟨?_, ?_⟩
      · simp [OpenBlock.clean, hf.1, hf.2, flagFirstChild, Block.cleanList]
      · have ha := h.2
        simp only [stackClean, List.all_eq_true, List.mem_map, forall_exists_index, and_imp,
          forall_apply_eq_imp_iff₂] at ha ⊢
        intro a hmem
        have := ha a hmem
        simp only [OpenBlock.clean, Bool.and_eq_true, Bool.not_eq_true'] at this ⊢
        exact ⟨trivial, this.2⟩

theorem setextHeading_good (st : ParserState) (lvl : Nat) (cur : Cursor)
    (h : stackClean st.stack = true) (hb : cur.blank = false) :
    (setextHeading st lvl cur).good = true := by
  unfold setextHeading
  split
  · rename_i tip parent rest heq
    rw [heq] at h
    simp only [stackClean_cons, Bool.and_eq_true] at h
    dsimp only
    split
    · simp only [OpenResult.good, stackClean_cons, Bool.and_eq_true, hb, Bool.not_false,
        Bool.true_or, and_true]
      exact ⟨by simpa [OpenBlock.clean] using h.1, h.2.1, h.2.2⟩
    · simp only [OpenResult.good, stackClean_cons, Bool.and_eq_true]
      refine ⟨?_, h.2.2⟩
      have hp := h.2.1
      simp only [OpenBlock.clean, Bool.and_eq_true, Bool.not_eq_true'] at hp ⊢
      exact ⟨hp.1, by simp [Block.cleanList, Block.clean, hp.2]⟩
  · simp [OpenResult.good, h, hb]

theorem openListItem_clean (st : ParserState) (m : ListMarker) (cur : Cursor)
    (h : stackClean st.stack = true) :
    stackClean (openListItem st m cur).1.stack = true := by
  unfold openListItem
  dsimp only
  apply pushOpen_clean
  split
  · exact h
  · exact pushOpen_clean _ _ h

theorem openListItem_fresh (st : ParserState) (m : ListMarker) (cur : Cursor) :
    tipFresh (openListItem st m cur).1 = true := by
  unfold openListItem
  dsimp only
  apply pushOpen_fresh
  have hl : (if (match kindAt st 0 with
        | BlockKind.list ordered _ delim _ => ordered == m.ordered && delim == m.delim
        | _ => false) = true then st
      else pushOpen st (BlockKind.list m.ordered m.start m.delim true)).lineNumber
      = st.lineNumber := by
    split
    · rfl
    · exact pushOpen_lineNumber _ _
  simp only [blankCounts, List.isEmpty_nil, Bool.not_false, Bool.and_self, Bool.true_and,
    Bool.not_eq_false', beq_iff_eq]
  exact hl.symm

theorem body_ne_nil_not_blank (cur : Cursor) (h : cur.body ≠ []) : cur.blank = false := by
  unfold Cursor.blank
  unfold Cursor.body at h
  cases hd : dropIndent cur.rest with
  | nil => exact absurd hd h
  | cons _ _ => rfl

theorem openNewBlocks_good (fuel : Nat) (st : ParserState) (um : Nat) (cur : Cursor)
    (h : stackClean st.stack = true)
    (hb : cur.blank = false ∨ (um = 0 ∧ tipFresh st = true)) :
    (openNewBlocks fuel st um cur).good = true := by
  have base : (OpenResult.text st um cur).good = true := by
    rcases hb with hb | ⟨h0, hf⟩
    · simp [OpenResult.good, h, hb]
    · simp [OpenResult.good, h, h0, hf]
  induction fuel generalizing st um cur with
  | zero => exact base
  | succ n ih =>
    unfold openNewBlocks
    simp only
    split
    · exact base
    · exact base
    · split
      · exact addLeaf_clean _ _ _ (by intro o s d; simp) (closeN_clean _ _ h)
      · split
        · exact addLeaf_clean _ _ _ (by intro o s d; simp) (closeN_clean _ _ h)
        · split
          · simp only [OpenResult.good, pushOpen_clean _ _ (closeN_clean _ _ h), Bool.true_and,
              beq_self_eq_true, Bool.or_eq_true, Bool.not_eq_true']
            right
            exact pushOpen_fresh _ _ (by simp [blankCounts])
          · split
            · rename_i v hv
              have hne : cur.body ≠ [] := by
                intro hnil
                split at hv
                · simp at hv
                · rw [hnil] at hv; simp [htmlBlockStart] at hv
              simp [OpenResult.good, pushOpen_clean _ _ (closeN_clean _ _ h),
                body_ne_nil_not_blank cur hne]
            · split
              · apply ih _ _ _ (pushOpen_clean _ _ (closeN_clean _ _ h))
                · right; exact ⟨rfl, pushOpen_fresh _ _ (by simp [blankCounts])⟩
                · simp [OpenResult.good, pushOpen_clean _ _ (closeN_clean _ _ h),
                    pushOpen_fresh _ .blockQuote (by simp [blankCounts])]
              · split
                · apply ih _ _ _ (openListItem_clean _ _ _ (closeN_clean _ _ h))
                  · right; exact ⟨rfl, openListItem_fresh _ _ _⟩
                  · simp [OpenResult.good, openListItem_clean _ _ _ (closeN_clean _ _ h),
                      openListItem_fresh]
                · split
                  · rename_i hcond
                    simp only [Bool.and_eq_true, Bool.not_eq_true', decide_eq_true_eq] at hcond
                    simp [OpenResult.good, pushOpen_clean _ _ (closeN_clean _ _ h),
                      blank_advanceCols, hcond.2]
                  · split
                    · rename_i lvl hl
                      have hne : cur.body ≠ [] := by
                        intro hnil
                        split at hl
                        · rw [hnil] at hl; simp [scanSetext] at hl
                        · simp at hl
                      exact setextHeading_good _ _ _ h (body_ne_nil_not_blank cur hne)
                    · exact base

theorem addText_clean (st : ParserState) (um : Nat) (cur : Cursor)
    (h : (OpenResult.text st um cur).good = true) :
    stackClean (addText st um cur).stack = true := by
  simp only [OpenResult.good, Bool.and_eq_true, Bool.or_eq_true, Bool.not_eq_true',
    beq_iff_eq] at h
  have h1 : stackClean (setBlankFlags st um cur.blank).stack = true := by
    rcases h.2 with hb | ⟨h0, hf⟩
    · rw [hb]; exact setBlankFlags_clean_nonblank st um h.1
    · subst h0; exact setBlankFlags_clean_fresh st _ h.1 hf
  unfold addText
  simp only
  split
  · exact appendLine_clean _ _ h1
  · have h2 := closeN_clean um _ h1
    split
    · exact appendLine_clean _ _ h2
    · split
      · exact closeTip_clean _ (appendLine_clean _ _ h2)
      · exact appendLine_clean _ _ h2
    · split
      · exact h2
      · exact appendLine_clean _ _ h2
    · split
      · exact h2
      · exact appendLine_clean _ _ (pushOpen_clean _ _ h2)

theorem processLine_clean (st : ParserState) (text : List Byte)
    (h : stackClean st.stack = true) (hc : hasContent text = true) :
    stackClean (processLine st text).stack = true := by
  unfold processLine
  simp only
  split
  · exact closeTip_clean _ h
  · have hcur := checkOpenBlocks_hasContent (st.stack.reverse.drop 1) ⟨0, text⟩ 1 hc
    have h2 := openNewBlocks_good (text.length + 1) { st with lineNumber := st.lineNumber + 1 }
      (st.stack.length - (checkOpenBlocks (st.stack.reverse.drop 1) ⟨0, text⟩ 1).1)
      (checkOpenBlocks (st.stack.reverse.drop 1) ⟨0, text⟩ 1).2.1 h
      (Or.inl (blank_of_hasContent _ hcur))
    split
    · rename_i st2 heq
      rw [heq] at h2; exact h2
    · rename_i st2 um cur heq
      rw [heq] at h2
      exact addText_clean _ _ _ h2

theorem foldl_processLine_clean (lines : List Line) (st : ParserState)
    (h : stackClean st.stack = true) (hc : ∀ l ∈ lines, hasContent l.text = true) :
    stackClean (lines.foldl (fun st l => processLine st l.text) st).stack = true := by
  induction lines generalizing st with
  | nil => exact h
  | cons l ls ih =>
    exact ih _ (processLine_clean st l.text h (hc l (List.mem_cons_self _ _)))
      (fun l2 h2 => hc l2 (List.mem_cons_of_mem _ h2))

theorem parseBlocks_clean (lines : List Line) (hc : ∀ l ∈ lines, hasContent l.text = true) :
    Block.clean (parseBlocks lines).1 = true := by
  unfold parseBlocks
  dsimp only
  have hfold := foldl_processLine_clean lines initialState (by decide) hc
  have hroot := foldl_processLine_root lines initialState (by decide)
  generalize lines.foldl (fun st l => processLine st l.text) initialState = st at hfold hroot
  have hclean := closeN_clean st.stack.length st hfold
  have hroot2 := closeN_root st.stack.length st hroot
  have hlen := closeN_length_one st.stack.length st (rootIsDocument_ne_nil hroot) (by omega)
  split
  · simp [Block.clean, Block.cleanList]
  · rename_i root rest heq
    rw [heq] at hroot2 hlen hclean
    cases rest with
    | nil =>
      simp only [rootIsDocument, beq_iff_eq] at hroot2
      simp only [stackClean_cons, OpenBlock.clean, Bool.and_eq_true, Bool.not_eq_true'] at hclean
      simp [Block.clean, hroot2, hclean.1.1, cleanList_reverse, hclean.1.2]
    | cons a b => simp at hlen

theorem toNode_sat {P : Node → Bool} (hP : InlineClosed P) (it : Item)
    (h : it.sat P = true) : P it.toNode = true := by
  cases it with
  | node n => exact h
  | delim ch count orig co cc => exact hP.text _
  | bracket i a b p => exact hP.text _

theorem map_toNode_sat {P : Node → Bool} (hP : InlineClosed P) (items : List Item)
    (h : ∀ it ∈ items, it.sat P = true) : ∀ n ∈ items.map Item.toNode, P n = true := by
  intro n hn
  simp only [List.mem_map] at hn
  obtain ⟨it, hit, rfl⟩ := hn
  exact toNode_sat hP it (h it hit)

theorem findOpener_sat {P : Node → Bool} (ch : Byte) (co : Nat) (cc : Bool) (left : List Item)
    (h : ∀ it ∈ left, it.sat P = true) (m : OpenerMatch)
    (hm : findOpener ch co cc left = some m) :
    (∀ it ∈ m.inner, it.sat P = true) ∧ (∀ it ∈ m.outer, it.sat P = true) := by
  induction left generalizing m with
  | nil => simp [findOpener] at hm
  | cons it rest ih =>
    have hrest : ∀ x ∈ rest, x.sat P = true := fun x hx => h x (List.mem_cons_of_mem _ hx)
    have hdeeper : ∀ m2, (findOpener ch co cc rest).map
        (fun m => { m with inner := it :: m.inner }) = some m2 →
        (∀ x ∈ m2.inner, x.sat P = true) ∧ (∀ x ∈ m2.outer, x.sat P = true) := by
      intro m2 h2
      simp only [Option.map_eq_some'] at h2
      obtain ⟨m0, hm0, rfl⟩ := h2
      have := ih hrest m0 hm0
      refine ⟨?_, this.2⟩
      intro x hx
      simp only [List.mem_cons] at hx
      rcases hx with rfl | hx
      · exact h _ (List.mem_cons_self _ _)
      · exact this.1 x hx
    unfold findOpener at hm
    simp only at hm
    split at hm
    · split at hm
      · simp only [Option.some.injEq] at hm
        subst hm
        exact ⟨by simp, hrest⟩
      · exact hdeeper m hm
    · exact hdeeper m hm

theorem wrapEmphasis_sat {P : Node → Bool} (hP : InlineClosed P) (ch : Byte) (m : OpenerMatch)
    (use : Nat) (hi : ∀ it ∈ m.inner, it.sat P = true) (ho : ∀ it ∈ m.outer, it.sat P = true) :
    ∀ it ∈ wrapEmphasis ch m use, it.sat P = true := by
  have hk : ∀ n ∈ m.inner.reverse.map Item.toNode, P n = true :=
    map_toNode_sat hP _ (fun it hit => hi it (List.mem_reverse.mp hit))
  have hnode : (Item.node (Node.mk (if use = 2 then .strong else .emphasis)
      (m.inner.reverse.map Item.toNode))).sat P = true := by
    simp only [Item.sat]
    split
    · exact hP.strong _ hk
    · exact hP.emphasis _ hk
  intro it hit
  unfold wrapEmphasis at hit
  simp only at hit
  split at hit
  · simp only [List.mem_cons] at hit
    rcases hit with rfl | hit
    · exact hnode
    · exact ho it hit
  · simp only [List.mem_cons] at hit
    rcases hit with rfl | rfl | hit
    · exact hnode
    · rfl
    · exact ho it hit

theorem closeDelim_sat {P : Node → Bool} (hP : InlineClosed P) (ch : Byte) (orig : Nat)
    (co : Bool) : ∀ (n : Nat) (left : List Item), (∀ it ∈ left, it.sat P = true) →
    ∀ it ∈ (closeDelim ch orig co n left).1, it.sat P = true
  | 0, left, h => by simpa [closeDelim] using h
  | 1, left, h => by
    unfold closeDelim
    split
    · exact h
    · rename_i m hm
      have := findOpener_sat ch orig co left h m hm
      exact wrapEmphasis_sat hP ch m 1 this.1 this.2
  | n + 2, left, h => by
    unfold closeDelim
    split
    · exact h
    · rename_i m hm
      have := findOpener_sat ch orig co left h m hm
      split
      · exact closeDelim_sat hP ch orig co n _ (wrapEmphasis_sat hP ch m 2 this.1 this.2)
      · exact closeDelim_sat hP ch orig co (n + 1) _ (wrapEmphasis_sat hP ch m 1 this.1 this.2)

theorem procEmphAux_sat {P : Node → Bool} (hP : InlineClosed P) (right : List Item) :
    ∀ left : List Item, (∀ it ∈ left, it.sat P = true) → (∀ it ∈ right, it.sat P = true) →
    ∀ it ∈ procEmphAux left right, it.sat P = true := by
  induction right with
  | nil => intro left hl _; simpa [procEmphAux] using hl
  | cons it rest ih =>
    intro left hl hr
    have hit : it.sat P = true := hr it (List.mem_cons_self _ _)
    have hrest : ∀ x ∈ rest, x.sat P = true := fun x hx => hr x (List.mem_cons_of_mem _ hx)
    have hpush : ∀ x ∈ it :: left, x.sat P = true := by
      intro x hx
      simp only [List.mem_cons] at hx
      rcases hx with rfl | hx
      · exact hit
      · exact hl x hx
    unfold procEmphAux
    split
    · rename_i ch count orig co cc
      split
      · split
        · split
          · rename_i m hm
            have := findOpener_sat ch orig co left hl m hm
            apply ih _ _ hrest
            intro x hx
            simp only [List.mem_cons, List.mem_append] at hx
            rcases hx with (rfl | hx) | rfl | hx
            · exact hP.text _
            · exact this.1 x hx
            · exact hP.text _
            · exact this.2 x hx
          · exact ih _ hpush hrest
        · have hcd := closeDelim_sat hP ch orig co count left hl
          dsimp only
          split
          · exact ih _ hcd hrest
          · apply ih _ _ hrest
            intro x hx
            simp only [List.mem_cons] at hx
            rcases hx with rfl | hx
            · rfl
            · exact hcd x hx
      · exact ih _ hpush hrest
    · exact ih _ hpush hrest

theorem procEmph_sat {P : Node → Bool} (hP : InlineClosed P) (items : List Item)
    (h : ∀ it ∈ items, it.sat P = true) : ∀ n ∈ procEmph items, P n = true := by
  unfold procEmph
  apply map_toNode_sat hP
  intro it hit
  exact procEmphAux_sat hP items [] (by simp) h it (List.mem_reverse.mp hit)

end CCommonMark
